import Mathlib

/-!
Verification development for the gh-proxy reverse proxy.

Go strings are modelled as `List Char` (`GoStr`); Go's `strings`/`path`
helpers are translated below, then the repository's own functions
(`internal/security`, `internal/ratelimit`, `internal/auth`,
`internal/middleware`, `internal/handler`, `internal/ssh`) are embedded
on top of them.  Wall-clock time is modelled as rational seconds.
Network effects (DNS resolution, the upstream GitHub API, upstream HTTP
responses) are passed to the embedded functions as explicit arguments.
-/

/-- Go string, modelled as its character list. -/
abbrev GoStr := List Char

/-- Conversion from a Lean string literal. -/
def str (s : String) : GoStr := s.data

/-- Go `strings.HasPrefix s pre` (argument order: pattern first). -/
def hasPre : GoStr → GoStr → Bool
  | [], _ => true
  | _, [] => false
  | a :: as, b :: bs => a = b && hasPre as bs

/-- Go `strings.Contains s sub`: `sub` occurs as a contiguous substring of `s`. -/
def goContains (s sub : GoStr) : Bool :=
  if hasPre sub s then true
  else match s with
    | [] => false
    | _ :: rest => goContains rest sub

/-- Go `strings.HasSuffix s suffix`. -/
def goHasSuf (s suffix : GoStr) : Bool := hasPre suffix.reverse s.reverse

/-- Go `strings.TrimPrefix s pre`: drops `pre` when it is a prefix, else returns `s`. -/
def goTrimPre (pre s : GoStr) : GoStr :=
  if hasPre pre s then s.drop pre.length else s

/-- Go `strings.TrimSuffix s suffix`. -/
def goTrimSuf (s suffix : GoStr) : GoStr :=
  if goHasSuf s suffix then s.take (s.length - suffix.length) else s

/-- Go `strings.ToLower` (character-wise; the inputs of interest are ASCII). -/
def goToLower (s : GoStr) : GoStr := s.map Char.toLower

/-- Go `strings.Split s sep` for a one-character separator: all the
substrings between occurrences of `sep`, empty pieces included. -/
def goSplitChar (sep : Char) : GoStr → List GoStr
  | [] => [[]]
  | c :: rest =>
    if c = sep then [] :: goSplitChar sep rest
    else
      match goSplitChar sep rest with
      | [] => [[c]]
      | seg :: segs => (c :: seg) :: segs

/-- Go `strings.Join parts sep`. -/
def goJoin (parts : List GoStr) (sep : GoStr) : GoStr :=
  match parts with
  | [] => []
  | [p] => p
  | p :: rest => p ++ sep ++ goJoin rest sep

/-- Go `unicode.IsSpace` restricted to the ASCII space characters. -/
def isSpaceChar (c : Char) : Bool :=
  c = ' ' || c = '\t' || c = '\n' || c = '\x0b' || c = '\x0c' || c = '\r'

/-- Go `strings.Fields`: the maximal runs of non-space characters. -/
def goFields : GoStr → List GoStr
  | [] => []
  | c :: rest =>
    if isSpaceChar c then goFields rest
    else
      match goFields rest with
      | [] => [[c]]
      | seg :: segs =>
        match rest with
        | [] => [[c]]
        | d :: _ => if isSpaceChar d then [c] :: seg :: segs else (c :: seg) :: segs

/-- Go `strings.TrimSpace`. -/
def goTrimSpace (s : GoStr) : GoStr :=
  ((s.dropWhile isSpaceChar).reverse.dropWhile isSpaceChar).reverse

/-- Go `strings.Trim s cutset`: removes leading and trailing characters from `cutset`. -/
def goTrimCut (s : GoStr) (cutset : List Char) : GoStr :=
  ((s.dropWhile cutset.contains).reverse.dropWhile cutset.contains).reverse

/-- Go `strings.SplitN s sep 2` for a one-character separator: at most two pieces,
split at the first occurrence. -/
def goSplitN2 (sep : Char) (s : GoStr) : List GoStr :=
  if goContains s [sep] then
    [s.takeWhile (fun c => !(c = sep)), (s.dropWhile (fun c => !(c = sep))).drop 1]
  else [s]

/-- First value of a header key, as Go's `http.Header.Get` / gin's header map. -/
def headerGet : List (GoStr × GoStr) → GoStr → Option GoStr
  | [], _ => none
  | (k, v) :: rest, key => if k = key then some v else headerGet rest key

/-- Gin's `c.Header k v` (i.e. `Header().Set`): replaces any existing value of `k`. -/
def setHeader (hs : List (GoStr × GoStr)) (k v : GoStr) : List (GoStr × GoStr) :=
  hs.filter (fun p => !(p.1 = k)) ++ [(k, v)]

/-! ### internal/security: IP model and `ValidateGitHubURL` -/

/-- An IP address as returned by `net.LookupIP`: IPv4 as four octets,
IPv6 as sixteen bytes. -/
inductive IPAddr
  | v4 (a b c d : Nat)
  | v6 (bytes : List Nat)
deriving DecidableEq

/-- Go `net.IP.IsLoopback`. -/
def ipIsLoopback : IPAddr → Bool
  | .v4 a _ _ _ => a = 127
  | .v6 bs => bs = [0, 0, 0, 0, 0, 0, 0, 0, 0, 0, 0, 0, 0, 0, 0, 1]

/-- Go `net.IP.IsLinkLocalUnicast`. -/
def ipIsLinkLocalUnicast : IPAddr → Bool
  | .v4 a b _ _ => a = 169 && b = 254
  | .v6 (b0 :: b1 :: _) => b0 = 0xfe && b1 &&& 0xc0 = 0x80
  | .v6 _ => false

/-- Go `net.IP.IsLinkLocalMulticast`. -/
def ipIsLinkLocalMulticast : IPAddr → Bool
  | .v4 a b c _ => a = 224 && b = 0 && c = 0
  | .v6 (b0 :: b1 :: _) => b0 = 0xff && b1 &&& 0x0f = 0x02
  | .v6 _ => false

/-- Membership in the `privateIPRanges` CIDR list of `internal/security`
(`10.0.0.0/8`, `172.16.0.0/12`, `192.168.0.0/16`, `127.0.0.0/8`,
`169.254.0.0/16`, `::1/128`, `fc00::/7`, `fe80::/10`), each prefix test
written as the corresponding mask comparison. -/
def inPrivateRanges : IPAddr → Bool
  | .v4 a b _ _ =>
    a = 10 || (a = 172 && b &&& 0xf0 = 16) || (a = 192 && b = 168) ||
      a = 127 || (a = 169 && b = 254)
  | .v6 bs =>
    bs = [0, 0, 0, 0, 0, 0, 0, 0, 0, 0, 0, 0, 0, 0, 0, 1] ||
      (match bs with
       | b0 :: b1 :: _ => b0 &&& 0xfe = 0xfc || (b0 = 0xfe && b1 &&& 0xc0 = 0x80)
       | _ => false)

/-- The repository's `isPrivateIP`: loopback, link-local (unicast or multicast),
or inside one of the private CIDR ranges. -/
def isPrivateIP (ip : IPAddr) : Bool :=
  ipIsLoopback ip || (ipIsLinkLocalUnicast ip || ipIsLinkLocalMulticast ip) ||
    inPrivateRanges ip

/-- The fixed `allowedGitHubDomains` list of `internal/security`. -/
def allowedGitHubDomains : List GoStr :=
  [str "github.com", str "api.github.com", str "raw.githubusercontent.com",
   str "githubusercontent.com", str "github.io", str "codeload.github.com",
   str "gist.github.com", str "objects.githubusercontent.com",
   str "avatars.githubusercontent.com", str "cloud.githubusercontent.com"]

/-- The repository's `isAllowedGitHubDomain`: the lower-cased host equals an
entry or ends with `"." ++` an entry. -/
def isAllowedGitHubDomain (host : GoStr) : Bool :=
  let host := goToLower host
  allowedGitHubDomains.any (fun domain =>
    host = domain || goHasSuf host ('.' :: domain))

/-- A URL already parsed by `net/url.Parse`: its scheme and its hostname. -/
structure GoURL where
  scheme : GoStr
  hostname : GoStr
deriving DecidableEq

/-- Outcome of `net.LookupIP` for the URL's host. -/
inductive DNSResult
  | failure
  | addrs (ips : List IPAddr)
deriving DecidableEq

/-- Error cases of `ValidateGitHubURL` (after URL parsing). -/
inductive URLErr
  | schemeNotHTTPx
  | emptyHost
  | hostNotAllowed
  | dnsError
  | resolvesPrivate
deriving DecidableEq

/-- The repository's `ValidateGitHubURL`, starting from the parsed URL (the
empty-string and `url.Parse`-failure checks precede this and are not modelled);
`dns` is the outcome of the platform resolver for the URL's hostname. -/
def validateGitHubURL (u : GoURL) (dns : DNSResult) : Option URLErr :=
  if !(u.scheme = str "http" || u.scheme = str "https") then some .schemeNotHTTPx
  else if u.hostname = [] then some .emptyHost
  else if !isAllowedGitHubDomain u.hostname then some .hostNotAllowed
  else
    match dns with
    | .failure => some .dnsError
    | .addrs ips => if ips.any isPrivateIP then some .resolvesPrivate else none

/-! ### path/filepath `Clean` (Unix) and `internal/security.ValidatePath` -/

/-- Backtracking step of Go `path.Clean` on a `..` element: with the output
buffer held in reverse (`rout`), pop characters until the popped one is `'/'`
or the buffer length reaches the `dotdot` mark. -/
def cleanBacktrack (dotdot : Nat) : GoStr → GoStr
  | [] => []
  | c :: rest =>
    if rest.length > dotdot ∧ ¬c = '/' then cleanBacktrack dotdot rest else rest

/-- Main loop of Go `path.Clean`: `rest` is the unread input, `rout` the
output buffer in reverse order, `dotdot` the index below which `..` may not
backtrack.  Follows the `lazybuf` loop of the Go source case by case. -/
def cleanCore (rooted : Bool) : GoStr → GoStr → Nat → GoStr
  | [], rout, _ => rout
  | c :: rest, rout, dotdot =>
    if c = '/' then
      cleanCore rooted rest rout dotdot
    else if c = '.' ∧ (rest = [] ∨ rest.head? = some '/') then
      cleanCore rooted rest rout dotdot
    else if c = '.' ∧ rest.head? = some '.' ∧
        (rest.tail = [] ∨ rest.tail.head? = some '/') then
      if rout.length > dotdot then
        cleanCore rooted rest.tail (cleanBacktrack dotdot rout) dotdot
      else if !rooted then
        cleanCore rooted rest.tail
          ('.' :: '.' :: if rout.length > 0 then '/' :: rout else rout)
          ('.' :: '.' :: if rout.length > 0 then '/' :: rout else rout).length
      else
        cleanCore rooted rest.tail rout dotdot
    else
      cleanCore rooted ((c :: rest).dropWhile (fun x => !(x = '/')))
        (((c :: rest).takeWhile (fun x => !(x = '/'))).reverse ++
          (if (rooted ∧ ¬rout.length = 1) ∨ (¬rooted ∧ ¬rout.length = 0) then
            '/' :: rout
           else rout)) dotdot
termination_by rest _ _ => rest.length
decreasing_by
  · simp
  · simp
  · cases rest with
    | nil => simp_all
    | cons d tl => simp only [List.tail_cons, List.length_cons]; omega
  · cases rest with
    | nil => simp_all
    | cons d tl => simp only [List.tail_cons, List.length_cons]; omega
  · cases rest with
    | nil => simp_all
    | cons d tl => simp only [List.tail_cons, List.length_cons]; omega
  · have hsuf := (List.dropWhile_suffix (fun x => !(x = '/')) : List.dropWhile _ rest <:+ rest).length_le
    simp only [List.dropWhile_cons]
    split
    · simp only [List.length_cons]; omega
    · simp_all

/-- Go `path.Clean` (which is `filepath.Clean` on Unix). -/
def pathClean (path : GoStr) : GoStr :=
  match path with
  | [] => ['.']
  | c :: rest =>
    if c = '/' then
      if (cleanCore true rest ['/'] 1).length = 0 then ['.']
      else (cleanCore true rest ['/'] 1).reverse
    else
      if (cleanCore false (c :: rest) [] 0).length = 0 then ['.']
      else (cleanCore false (c :: rest) [] 0).reverse

/-- Go `filepath.IsAbs` on Unix: the path starts with `'/'`. -/
def filepathIsAbs (path : GoStr) : Bool := hasPre ['/'] path

/-- Error cases of `ValidatePath`. -/
inductive PathErr
  | empty
  | traversalClean
  | absolute
  | nullByte
  | dangerous
  | traversalStart
deriving DecidableEq

/-- The `dangerousPatterns` list of `ValidatePath`. -/
def dangerousPatterns : List GoStr :=
  [str "../", ['.', '.', '\\'], str "/..", ['\\', '.', '.']]

/-- The repository's `ValidatePath`, check for check in source order (the Go
locals `cleanPath` and `lowerPath` are inlined). -/
def validatePath (path : GoStr) : Option PathErr :=
  if path = [] then some .empty
  else if goContains (pathClean path) (str "..") then some .traversalClean
  else if filepathIsAbs (pathClean path) then some .absolute
  else if goContains path [Char.ofNat 0] then some .nullByte
  else if dangerousPatterns.any (fun pat => goContains (goToLower path) pat) then
    some .dangerous
  else if hasPre (str "..") (pathClean path) then some .traversalStart
  else none

/-! ### internal/security: owner validation -/

/-- ASCII letter or digit. -/
def isAlnumChar (c : Char) : Bool :=
  ('a' ≤ c ∧ c ≤ 'z') || ('A' ≤ c ∧ c ≤ 'Z') || ('0' ≤ c ∧ c ≤ '9')

/-- The `ownerRegex` of `internal/security`:
`^[a-zA-Z0-9]([a-zA-Z0-9-]{0,37}[a-zA-Z0-9])?$` as a direct character test. -/
def ownerRegexMatch : GoStr → Bool
  | [] => false
  | [c] => isAlnumChar c
  | c :: rest =>
    isAlnumChar c && rest.length ≤ 38 && isAlnumChar (rest.getLast!) &&
      rest.dropLast.all (fun ch => isAlnumChar ch || ch = '-')

/-- Error cases of `ValidateOwner`. -/
inductive OwnerErr
  | empty
  | tooLong
  | invalid
deriving DecidableEq

/-- The repository's `ValidateOwner`. -/
def validateOwner (owner : GoStr) : Option OwnerErr :=
  if owner = [] then some .empty
  else if owner.length > 39 then some .tooLong
  else if !ownerRegexMatch owner then some .invalid
  else none

/-! ### internal/ratelimit: token-bucket limiter (`golang.org/x/time/rate`) -/

/-- State of one `rate.Limiter` bucket: available tokens and the time of the
last state change, both over exact rationals (the library uses float64). -/
structure TBucket where
  tokens : ℚ
  last : ℚ
deriving DecidableEq

/-- A bucket as first created for an IP: full at `burst` tokens. -/
def freshBucket (burst : ℚ) (now : ℚ) : TBucket := ⟨burst, now⟩

/-- One `Limiter.Allow` call at time `now`: refill by the elapsed time capped
at `burst`, then consume one token if at least one is available (on refusal the
bucket state is left unchanged, as in `rate.reserveN`). -/
def bucketAllow (limit burst : ℚ) (b : TBucket) (now : ℚ) : Bool × TBucket :=
  if 1 ≤ min burst (b.tokens + (now - b.last) * limit) then
    (true, ⟨min burst (b.tokens + (now - b.last) * limit) - 1, now⟩)
  else (false, b)

/-- The `RateLimiter` per-IP map (`sync.Map` keyed by the IP string). -/
def RLMap := GoStr → Option TBucket

/-- The repository's `RateLimiter.Allow`: look up or lazily create the IP's
bucket, then run one token-bucket step on it. -/
def rlAllow (limit burst : ℚ) (m : RLMap) (ip : GoStr) (now : ℚ) :
    Bool × RLMap :=
  ((bucketAllow limit burst ((m ip).getD (freshBucket burst now)) now).1,
   fun k => if k = ip then
      some (bucketAllow limit burst ((m ip).getD (freshBucket burst now)) now).2
    else m k)

/-- Run a sequence of `Allow` calls on a single bucket, collecting verdicts. -/
def bucketRun (limit burst : ℚ) (b : TBucket) : List ℚ → List Bool
  | [] => []
  | t :: ts =>
    (bucketAllow limit burst b t).1 ::
      bucketRun limit burst (bucketAllow limit burst b t).2 ts

/-- Run a sequence of `(ip, time)` requests through `RateLimiter.Allow`,
collecting the verdicts. -/
def rlRun (limit burst : ℚ) (m : RLMap) : List (GoStr × ℚ) → List Bool × RLMap
  | [] => ([], m)
  | (ip, now) :: rest =>
    ((rlAllow limit burst m ip now).1 ::
       (rlRun limit burst (rlAllow limit burst m ip now).2 rest).1,
     (rlRun limit burst (rlAllow limit burst m ip now).2 rest).2)

/-- Outcome of the `RateLimit` middleware for one request. -/
inductive RLOut
  | next
  | tooMany (status : Nat) (jsonBody : List (GoStr × GoStr))
deriving DecidableEq

/-- The `middleware.RateLimit` gate: on refusal abort with HTTP 429 and the
fixed JSON object, otherwise pass the request on. -/
def rateLimitMW (allowed : Bool) : RLOut :=
  if allowed then .next
  else .tooMany 429
    [(str "error", str "Too Many Requests"),
     (str "message", str "Rate limit exceeded. Please try again later.")]

/-! ### internal/auth: tokens, upstream validation, verdict cache -/

/-- The `auth.Token` record (rate-limit info and scopes omitted; times are
rational seconds). -/
structure AuthToken where
  value : GoStr
  username : GoStr
  login : GoStr
  validatedAt : ℚ
  expiresAt : ℚ
deriving DecidableEq

/-- Go `Token.IsExpired`: `time.Now().After(ExpiresAt)`. -/
def tokenIsExpired (t : AuthToken) (now : ℚ) : Bool := now > t.expiresAt

/-- What the upstream `https://api.github.com/user` call produced: a transport
error, or an HTTP status with the decoded login name. -/
inductive UpstreamUser
  | netErr
  | resp (status : Nat) (login : GoStr)
deriving DecidableEq

/-- Error cases of `ValidateBasicAuthWithContext` plus the base64 failure of
`handleBasicAuth`. -/
inductive AuthErr
  | emptyPassword
  | transport
  | unauthorized
  | forbidden
  | otherStatus (code : Nat)
  | badBase64
deriving DecidableEq

/-- The repository's `ValidateBasicAuthWithContext`: reject an empty password,
map upstream 401/403/other to errors, and build a token with a one-hour
expiry on upstream 200. -/
def validateBasicAuth (password : GoStr) (up : UpstreamUser) (now : ℚ) :
    Except AuthErr AuthToken :=
  if password = [] then .error .emptyPassword
  else
    match up with
    | .netErr => .error .transport
    | .resp status login =>
      if status = 401 then .error .unauthorized
      else if status = 403 then .error .forbidden
      else if !(status = 200) then .error (.otherStatus status)
      else .ok ⟨password, login, login, now, now + 3600⟩

/-- The auth cache store.  The Go cache is keyed by
`hex(sha256(username ++ ":" ++ password))`; the hash is modelled as the
identity pairing (collisions ignored). -/
def AuthStore := GoStr × GoStr → Option AuthToken

/-- The repository's `Cache.Get`: a missing entry yields `none`; an expired
entry is deleted and yields `none`; otherwise the cached token is returned. -/
def cacheGet (store : AuthStore) (username password : GoStr) (now : ℚ) :
    Option AuthToken × AuthStore :=
  match store (username, password) with
  | none => (none, store)
  | some tok =>
    if tokenIsExpired tok now then
      (none, fun k => if k = (username, password) then none else store k)
    else (some tok, store)

/-- The repository's `Cache.Set`. -/
def cacheSet (store : AuthStore) (username password : GoStr) (tok : AuthToken) :
    AuthStore :=
  fun k => if k = (username, password) then some tok else store k

/-- The repository's `Cache.GetOrValidateWithContext`: serve a cache hit,
otherwise validate against upstream and cache a successful result. -/
def getOrValidate (store : AuthStore) (username password : GoStr)
    (up : UpstreamUser) (now : ℚ) : Except AuthErr AuthToken × AuthStore :=
  let (hit, store₁) := cacheGet store username password now
  match hit with
  | some tok => (.ok tok, store₁)
  | none =>
    match validateBasicAuth password up now with
    | .error e => (.error e, store₁)
    | .ok tok => (.ok tok, cacheSet store₁ username password tok)

/-! ### encoding/base64 `StdEncoding.DecodeString` -/

/-- Value of one standard-alphabet base64 character. -/
def b64Val (c : Char) : Option Nat :=
  if 'A' ≤ c ∧ c ≤ 'Z' then some (c.toNat - 'A'.toNat)
  else if 'a' ≤ c ∧ c ≤ 'z' then some (c.toNat - 'a'.toNat + 26)
  else if '0' ≤ c ∧ c ≤ '9' then some (c.toNat - '0'.toNat + 52)
  else if c = '+' then some 62
  else if c = '/' then some 63
  else none

/-- Go `base64.StdEncoding.DecodeString`, block-wise on padded input; the
decoded bytes are produced as characters (Go builds a `string` from them). -/
def base64Decode : GoStr → Option GoStr
  | [] => some []
  | c1 :: c2 :: c3 :: c4 :: rest =>
    match b64Val c1, b64Val c2 with
    | some v1, some v2 =>
      if c3 = '=' then
        if c4 = '=' ∧ rest = [] then some [Char.ofNat (v1 * 4 + v2 / 16)]
        else none
      else
        match b64Val c3 with
        | some v3 =>
          if c4 = '=' then
            if rest = [] then
              some [Char.ofNat (v1 * 4 + v2 / 16),
                    Char.ofNat (v2 % 16 * 16 + v3 / 4)]
            else none
          else
            match b64Val c4 with
            | some v4 =>
              (base64Decode rest).map
                (fun tail =>
                  Char.ofNat (v1 * 4 + v2 / 16) ::
                  Char.ofNat (v2 % 16 * 16 + v3 / 4) ::
                  Char.ofNat (v3 % 4 * 64 + v4) :: tail)
            | none => none
        | none => none
    | _, _ => none
  | _ => none

/-! ### internal/middleware: the Auth middleware -/

/-- Result of the Auth middleware for one request: pass the request on
(without or with a context token — which may itself be `none`), or abort with
an HTTP status. -/
inductive MWOut
  | nextNoToken
  | nextWithToken (tok : Option AuthToken)
  | abort (status : Nat)
deriving DecidableEq

/-- The repository's `handleBasicAuth`: strip `"Basic "`, base64-decode, split
at the first `':'`, then consult the cache and fall back to upstream
validation.  When the payload has no `':'` the Go code returns `nil, err`
with `err` still `nil` — modelled as `(none, none)`.  Returns (token, error,
updated store). -/
def handleBasicAuth (store : AuthStore) (up : UpstreamUser) (now : ℚ)
    (authHeader : GoStr) : Option AuthToken × Option AuthErr × AuthStore :=
  let encodedCreds := goTrimPre (str "Basic ") authHeader
  match base64Decode encodedCreds with
  | none => (none, some .badBase64, store)
  | some credentials =>
    let parts := goSplitN2 ':' credentials
    if !(parts.length = 2) then (none, none, store)
    else
      let username := parts.getD 0 []
      let password := parts.getD 1 []
      match (cacheGet store username password now).1 with
      | some tok => (some tok, none, store)
      | none =>
        match validateBasicAuth password up now with
        | .error e => (none, some e, store)
        | .ok tok => (some tok, none, cacheSet store username password tok)

/-- The repository's `handleBearerAuth`: strip `"Bearer "`, use the empty
username, consult the cache and fall back to upstream validation. -/
def handleBearerAuth (store : AuthStore) (up : UpstreamUser) (now : ℚ)
    (authHeader : GoStr) : Option AuthToken × Option AuthErr × AuthStore :=
  let tokenValue := goTrimPre (str "Bearer ") authHeader
  match (cacheGet store [] tokenValue now).1 with
  | some tok => (some tok, none, store)
  | none =>
    match validateBasicAuth tokenValue up now with
    | .error e => (none, some e, store)
    | .ok tok => (some tok, none, cacheSet store [] tokenValue tok)

/-- The repository's `middleware.Auth` for one request.  `authHeader = []`
models a missing `Authorization` header (gin's `GetHeader` returns `""`). -/
def authMiddleware (enabled allowAnonymous : Bool) (store : AuthStore)
    (up : UpstreamUser) (now : ℚ) (authHeader : GoStr) : MWOut :=
  if !enabled then .nextNoToken
  else if authHeader = [] then
    if allowAnonymous then .nextNoToken else .abort 401
  else if hasPre (str "Basic ") authHeader then
    match handleBasicAuth store up now authHeader with
    | (tok, none, _) => .nextWithToken tok
    | (_, some _, _) => .abort 401
  else if hasPre (str "Bearer ") authHeader then
    match handleBearerAuth store up now authHeader with
    | (tok, none, _) => .nextWithToken tok
    | (_, some _, _) => .abort 401
  else .abort 401

/-! ### internal/handler: response headers of the content handlers -/

/-- An upstream HTTP response, reduced to the data the handlers' header logic
consumes: status and single-valued headers. -/
structure UpResp where
  status : Nat
  headers : List (GoStr × GoStr)
deriving DecidableEq

/-- A response as sent to the client: status and the headers the handler set. -/
structure ClientResp where
  status : Nat
  headers : List (GoStr × GoStr)
deriving DecidableEq

/-- The `X-Cache` header name. -/
def xCacheName : GoStr := str "X-Cache"

/-- Copy the first value of every upstream header into the gin response
(`c.Header key value` for each key), as the raw/gist/archive/API handlers do. -/
def copyRespHeaders (hs : List (GoStr × GoStr)) : List (GoStr × GoStr) :=
  hs.foldl (fun acc kv => setHeader acc kv.1 kv.2) []

/-- A cached entry as the handlers see it: stored headers and ETag. -/
structure CEntry where
  headers : List (GoStr × GoStr)
  etag : GoStr
deriving DecidableEq

/-- `serveFromCache` of the raw/gist/API handlers: stored headers, the ETag if
non-empty, then `X-Cache: HIT-MEMORY`, status 200. -/
def serveFromCache (entry : CEntry) : ClientResp :=
  let hs := copyRespHeaders entry.headers
  let hs := if !(entry.etag = []) then setHeader hs (str "ETag") entry.etag else hs
  ⟨200, setHeader hs xCacheName (str "HIT-MEMORY")⟩

/-- `serveFromDisk` of the raw/gist/archive handlers: metadata headers, the
ETag if non-empty, then `X-Cache: HIT-DISK`, status 200. -/
def serveFromDisk (meta : CEntry) : ClientResp :=
  let hs := copyRespHeaders meta.headers
  let hs := if !(meta.etag = []) then setHeader hs (str "ETag") meta.etag else hs
  ⟨200, setHeader hs xCacheName (str "HIT-DISK")⟩

/-- `RawHandler.fetchAndStream` (identically `GistHandler.fetchAndStream` and
`ArchiveHandler.fetchAndStream` for headers): a non-200 upstream status is
forwarded with no copied headers; a 200 gets the upstream headers plus
`X-Cache: MISS`. -/
def rawFetchRespond (up : UpResp) : ClientResp :=
  if !(up.status = 200) then ⟨up.status, []⟩
  else ⟨200, setHeader (copyRespHeaders up.headers) xCacheName (str "MISS")⟩

/-- `GitHandler.forwardRequest`: all upstream header values are copied and the
status forwarded; no `X-Cache` header is ever added. -/
def gitForwardRespond (up : UpResp) : ClientResp :=
  ⟨up.status, copyRespHeaders up.headers⟩

/-- `APIHandler`: only GET requests are considered cacheable. -/
def apiShouldCache (method : GoStr) : Bool := method = str "GET"

/-- `APIHandler.forwardRequest`: upstream headers are always copied;
`X-Cache: MISS` is added only when the request is cacheable and the upstream
status is exactly 200. -/
def apiForwardRespond (shouldCache : Bool) (up : UpResp) : ClientResp :=
  let hs := copyRespHeaders up.headers
  if shouldCache ∧ up.status = 200 then
    ⟨up.status, setHeader hs xCacheName (str "MISS")⟩
  else ⟨up.status, hs⟩

/-- Modelled from the spec: the `ReleasesHandler` source file is missing from
src (`doc.go` and the server wiring reference it but its implementation is
absent), so its response headers are modelled from the spec's shared handler
contract of section 4.6: the release handler uses the disk tier, so a cache
hit is served with `X-Cache: HIT-DISK`; on a miss the upstream 2xx body is
streamed with `X-Cache: MISS`; a non-2xx upstream response is forwarded
verbatim (status and headers) without caching and without an added header. -/
def releasesRespond (hit : Option CEntry) (up : UpResp) : ClientResp :=
  match hit with
  | some meta => serveFromDisk meta
  | none =>
    if 200 ≤ up.status ∧ up.status < 300 then
      ⟨up.status, setHeader (copyRespHeaders up.headers) xCacheName (str "MISS")⟩
    else ⟨up.status, copyRespHeaders up.headers⟩

/-- `APIHandler.determineTTL`, in seconds, with the source's `switch` order
(`strings.Contains` on the request path). -/
def determineTTL (path : GoStr) : Nat :=
  if goContains path (str "/releases") then 3600
  else if goContains path (str "/repos") then 1800
  else if goContains path (str "/users") then 1800
  else if goContains path (str "/issues") || goContains path (str "/pulls") then 300
  else if goContains path (str "/commits") then 86400
  else 900

/-! ### internal/handler: the full-URL dispatcher -/

/-- The `GitHubURLInfo` record of `URLHandler` (`Type` is rendered `kind`). -/
structure GitHubURLInfo where
  kind : GoStr := []
  owner : GoStr := []
  repo : GoStr := []
  tag : GoStr := []
  ref : GoStr := []
  filename : GoStr := []
  filepath : GoStr := []
  gistID : GoStr := []
  user : GoStr := []
  apiPath : GoStr := []
deriving DecidableEq

/-- The repository's `parseGitHubComURL`, acting on the URL path with its
leading slash already trimmed. -/
def parseGitHubComURL (path : GoStr) : Option GitHubURLInfo :=
  let parts := goSplitChar '/' path
  if parts.length < 2 then none
  else
    let info : GitHubURLInfo :=
      { owner := parts.getD 0 [], repo := goTrimSuf (parts.getD 1 []) (str ".git") }
    if parts.length < 3 then some info
    else if parts.getD 2 [] = str "releases" then
      if parts.length ≥ 5 ∧ parts.getD 3 [] = str "download" then
        some { info with
          kind := str "releases", tag := parts.getD 4 [],
          filename := if parts.length > 5 then goJoin (parts.drop 5) (str "/") else [] }
      else some info
    else if parts.getD 2 [] = str "raw" ∨ parts.getD 2 [] = str "blob" ∨
        parts.getD 2 [] = str "tree" then
      if parts.length ≥ 4 then
        if parts.getD 3 [] = str "refs" ∧ parts.length ≥ 5 then
          some { info with
            kind := str "raw",
            ref := goJoin ((parts.drop 3).take 2) (str "/"),
            filepath :=
              if parts.length > 5 then '/' :: goJoin (parts.drop 5) (str "/") else [] }
        else
          some { info with
            kind := str "raw", ref := parts.getD 3 [],
            filepath :=
              if parts.length > 4 then '/' :: goJoin (parts.drop 4) (str "/") else [] }
      else some { info with kind := str "raw" }
    else if parts.getD 2 [] = str "archive" then
      some { info with
        kind := str "archive",
        ref := if parts.length ≥ 4 then goJoin (parts.drop 3) (str "/") else [] }
    else if goHasSuf (parts.getD 1 []) (str ".git") ∨
        goContains path (str "/info/refs") ∨
        goContains path (str "/git-upload-pack") ∨
        goContains path (str "/git-receive-pack") then
      some { info with kind := str "git" }
    else some info

/-- The repository's `parseRawGitHubUserContentURL`. -/
def parseRawGitHubUserContentURL (path : GoStr) : Option GitHubURLInfo :=
  let parts := goSplitChar '/' path
  if parts.length < 3 then none
  else
    some { kind := str "raw", owner := parts.getD 0 [], repo := parts.getD 1 [],
           ref := parts.getD 2 [],
           filepath :=
             if parts.length > 3 then '/' :: goJoin (parts.drop 3) (str "/") else [] }

/-- The repository's `parseAPIGitHubURL`. -/
def parseAPIGitHubURL (path : GoStr) : Option GitHubURLInfo :=
  some { kind := str "api", apiPath := '/' :: path }

/-- The repository's `parseGistGitHubURL`: the file name is the segment right
after the first literal `raw` segment. -/
def parseGistGitHubURL (path : GoStr) : Option GitHubURLInfo :=
  let parts := goSplitChar '/' path
  if parts.length < 2 then none
  else
    let rec findRawNext : List GoStr → GoStr
      | [] => []
      | [_] => []
      | p :: q :: rest => if p = str "raw" then q else findRawNext (q :: rest)
    some { kind := str "gist", user := parts.getD 0 [], gistID := parts.getD 1 [],
           filename := findRawNext parts }

/-- Scheme/host/path split of `net/url.Parse` for the absolute-URL shapes the
dispatcher receives (`http://host/path`, `https://host/path`, or a scheme-less
string, which `url.Parse` leaves entirely in the path). -/
structure ParsedFullURL where
  scheme : GoStr
  host : GoStr
  path : GoStr
deriving DecidableEq

/-- Minimal model of `net/url.Parse` on the dispatcher's inputs. -/
def urlParseSimple (s : GoStr) : ParsedFullURL :=
  if hasPre (str "https://") s then
    let rest := s.drop 8
    ⟨str "https", rest.takeWhile (fun c => !(c = '/')),
     rest.dropWhile (fun c => !(c = '/'))⟩
  else if hasPre (str "http://") s then
    let rest := s.drop 7
    ⟨str "http", rest.takeWhile (fun c => !(c = '/')),
     rest.dropWhile (fun c => !(c = '/'))⟩
  else ⟨[], [], s⟩

/-- The repository's `parseGitHubURL`: re-parse scheme-less known hosts with
`https://` prepended, then dispatch on the host (specific hosts before the
`github.com` fallback). -/
def parseGitHubURL (fullURL : GoStr) : Option GitHubURLInfo :=
  let p0 := urlParseSimple fullURL
  let p :=
    if p0.scheme = [] ∧
        (hasPre (str "github.com/") fullURL ∨
         hasPre (str "raw.githubusercontent.com/") fullURL ∨
         hasPre (str "api.github.com/") fullURL ∨
         hasPre (str "gist.github.com/") fullURL) then
      urlParseSimple (str "https://" ++ fullURL)
    else p0
  let path := goTrimPre ['/'] p.path
  if goContains p.host (str "raw.githubusercontent.com") then
    parseRawGitHubUserContentURL path
  else if goContains p.host (str "api.github.com") then parseAPIGitHubURL path
  else if goContains p.host (str "gist.github.com") then parseGistGitHubURL path
  else if goContains p.host (str "github.com") then parseGitHubComURL path
  else none

/-! ### internal/ssh: exec command parsing -/

/-- The repository's `isValidGitHubName`: non-empty, not `.` or `..`, and
only ASCII alphanumerics, `-`, `_`, `.`. -/
def isValidGitHubName (name : GoStr) : Bool :=
  if name = [] ∨ name = ['.'] ∨ name = ['.', '.'] then false
  else name.all (fun ch =>
    ('a' ≤ ch ∧ ch ≤ 'z') || ('A' ≤ ch ∧ ch ≤ 'Z') ||
    ('0' ≤ ch ∧ ch ≤ '9') || ch = '-' || ch = '_' || ch = '.')

/-- The repository's `parseRepoPath`: trim slashes, strip a trailing `.git`,
split on `/`, and check both halves with `isValidGitHubName` (the Go locals
`path`, `parts`, `owner`, `repo` are inlined). -/
def parseRepoPath (path : GoStr) : Option (GoStr × GoStr) :=
  if (goSplitChar '/' (goTrimSuf (goTrimCut path ['/']) (str ".git"))).length < 2 then
    none
  else if (goSplitChar '/' (goTrimSuf (goTrimCut path ['/']) (str ".git"))).getD 0 [] = [] ∨
      (goSplitChar '/' (goTrimSuf (goTrimCut path ['/']) (str ".git"))).getD 1 [] = [] then
    none
  else if !isValidGitHubName
      ((goSplitChar '/' (goTrimSuf (goTrimCut path ['/']) (str ".git"))).getD 0 []) then
    none
  else if !isValidGitHubName
      ((goSplitChar '/' (goTrimSuf (goTrimCut path ['/']) (str ".git"))).getD 1 []) then
    none
  else
    some ((goSplitChar '/' (goTrimSuf (goTrimCut path ['/']) (str ".git"))).getD 0 [],
      (goSplitChar '/' (goTrimSuf (goTrimCut path ['/']) (str ".git"))).getD 1 [])

/-- The `GitCommand` record of `internal/ssh`. -/
structure GitCommand where
  operation : GoStr
  owner : GoStr
  repo : GoStr
  repoPath : GoStr
deriving DecidableEq

/-- The repository's `parseGitCommand`: trim, split into whitespace fields,
accept only the two Git operations, strip quotes from the second field, and
parse it as `owner/repo` (the Go locals `parts`, `gitOp`, `repoPath` are
inlined). -/
def parseGitCommand (command : GoStr) : Option GitCommand :=
  if (goFields (goTrimSpace command)).length < 2 then none
  else if !((goFields (goTrimSpace command)).getD 0 [] = str "git-upload-pack") ∧
      !((goFields (goTrimSpace command)).getD 0 [] = str "git-receive-pack") then none
  else
    (parseRepoPath
        (goTrimCut ((goFields (goTrimSpace command)).getD 1 []) [Char.ofNat 39, '"'])).map
      (fun pr =>
        ⟨(goFields (goTrimSpace command)).getD 0 [], pr.1, pr.2,
         goTrimCut ((goFields (goTrimSpace command)).getD 1 []) [Char.ofNat 39, '"']⟩)

/-- Absence of a `..` path component: no element of the `/`-split equals `..`.
Used to reason about `pathClean`. -/
def noDotDotSeg (l : GoStr) : Prop := str ".." ∉ goSplitChar '/' l

/-! ## General lemmas about the string model -/

/-- Characterization of `hasPre`. -/
theorem hasPre_iff (pre s : GoStr) : hasPre pre s = true ↔ ∃ t, s = pre ++ t := by
  induction pre generalizing s with
  | nil => simp [hasPre]
  | cons a as ih =>
    cases s with
    | nil => simp [hasPre]
    | cons b bs =>
      simp only [hasPre, Bool.and_eq_true, decide_eq_true_eq, ih, List.cons_append,
        List.cons.injEq]
      constructor
      · rintro ⟨rfl, t, rfl⟩; exact ⟨t, rfl, rfl⟩
      · rintro ⟨t, rfl, rfl⟩; exact ⟨rfl, t, rfl⟩

/-- Characterization of `goContains` as substring occurrence. -/
theorem goContains_iff (s sub : GoStr) :
    goContains s sub = true ↔ ∃ a b, s = a ++ sub ++ b := by
  induction s with
  | nil =>
    constructor
    · intro h
      cases sub with
      | nil => exact ⟨[], [], rfl⟩
      | cons c cs => simp [goContains, hasPre] at h
    · rintro ⟨a, b, hab⟩
      have h2 : a ++ (sub ++ b) = [] := by rw [← List.append_assoc]; exact hab.symm
      obtain ⟨rfl, h3⟩ := List.append_eq_nil.mp h2
      obtain ⟨rfl, rfl⟩ := List.append_eq_nil.mp h3
      simp [goContains, hasPre]
  | cons c rest ih =>
    rw [goContains]
    constructor
    · intro h
      split at h
      · rename_i hp
        obtain ⟨t, ht⟩ := (hasPre_iff _ _).mp hp
        exact ⟨[], t, by simp [ht]⟩
      · obtain ⟨a, b, hab⟩ := ih.mp h
        exact ⟨c :: a, b, by simp [hab]⟩
    · rintro ⟨a, b, hab⟩
      split
      · rfl
      · rename_i hp
        cases a with
        | nil =>
          exact absurd ((hasPre_iff _ _).mpr ⟨b, by simpa using hab⟩) (by simp [hp])
        | cons a0 a' =>
          simp only [List.cons_append, List.cons.injEq] at hab
          exact ih.mpr ⟨a', b, hab.2⟩

/-- An occurrence in the right part survives prepending. -/
theorem goContains_append_right (s t sub : GoStr) (h : goContains t sub = true) :
    goContains (s ++ t) sub = true := by
  obtain ⟨a, b, rfl⟩ := (goContains_iff _ _).mp h
  exact (goContains_iff _ _).mpr ⟨s ++ a, b, by simp⟩

/-- An occurrence in the left part survives appending. -/
theorem goContains_append_left (s t sub : GoStr) (h : goContains s sub = true) :
    goContains (s ++ t) sub = true := by
  obtain ⟨a, b, rfl⟩ := (goContains_iff _ _).mp h
  exact (goContains_iff _ _).mpr ⟨a, b ++ t, by simp⟩

/-- An occurrence survives a character-wise map. -/
theorem goContains_map (f : Char → Char) (s sub : GoStr)
    (h : goContains s sub = true) :
    goContains (s.map f) (sub.map f) = true := by
  obtain ⟨a, b, rfl⟩ := (goContains_iff _ _).mp h
  exact (goContains_iff _ _).mpr ⟨a.map f, b.map f, by simp⟩

/-- An occurrence reverses. -/
theorem goContains_reverse (s sub : GoStr) (h : goContains s sub = true) :
    goContains s.reverse sub.reverse = true := by
  obtain ⟨a, b, rfl⟩ := (goContains_iff _ _).mp h
  exact (goContains_iff _ _).mpr ⟨b.reverse, a.reverse, by simp⟩

/-- Unfolding `goContains` on a cons cell. -/
theorem goContains_cons (c : Char) (s sub : GoStr) :
    goContains (c :: s) sub = (hasPre sub (c :: s) || goContains s sub) := by
  rw [goContains]; split <;> simp [*]

/-- A `hasPre` match is in particular a `goContains` match. -/
theorem hasPre_goContains (s sub : GoStr) (h : hasPre sub s = true) :
    goContains s sub = true := by
  obtain ⟨t, rfl⟩ := (hasPre_iff _ _).mp h
  exact (goContains_iff _ _).mpr ⟨[], t, by simp⟩

/-- A string with a cons-shaped prefix is itself a cons. -/
theorem hasPre_cons_ne_nil (c : Char) (pre s : GoStr)
    (h : hasPre (c :: pre) s = true) : s ≠ [] := by
  obtain ⟨t, rfl⟩ := (hasPre_iff _ _).mp h
  simp

/-! ## C1: destination policy rejects private resolutions -/

/-- The claim C1: for a URL whose scheme is http or https and whose hostname
is allow-listed, any private resolved address makes `ValidateGitHubURL` return
an error; in particular a URL resolving only to private addresses is rejected. -/
theorem validateGitHubURL_rejects_private (u : GoURL) (ips : List IPAddr)
    (hscheme : u.scheme = str "http" ∨ u.scheme = str "https")
    (hhost : isAllowedGitHubDomain u.hostname = true) :
    ((∃ ip ∈ ips, isPrivateIP ip = true) →
      validateGitHubURL u (.addrs ips) = some .resolvesPrivate) ∧
    (ips ≠ [] → (∀ ip ∈ ips, isPrivateIP ip = true) →
      validateGitHubURL u (.addrs ips) = some .resolvesPrivate) := by
  have hne : ¬ u.hostname = [] := by
    intro h
    rw [h] at hhost
    exact absurd hhost (by decide)
  have hmain : (∃ ip ∈ ips, isPrivateIP ip = true) →
      validateGitHubURL u (.addrs ips) = some .resolvesPrivate := by
    rintro ⟨ip, hmem, hpriv⟩
    have hanys : ips.any isPrivateIP = true := List.any_eq_true.mpr ⟨ip, hmem, hpriv⟩
    rcases hscheme with h | h <;>
      simp [validateGitHubURL, h, hne, hhost, hanys]
  refine ⟨hmain, fun hne2 hall => hmain ?_⟩
  cases ips with
  | nil => exact absurd rfl hne2
  | cons ip rest => exact ⟨ip, by simp, hall ip (by simp)⟩

/-- Witness for C1 at `https://github.com` resolving to `10.0.0.1`. -/
theorem validateGitHubURL_rejects_private_witness :
    validateGitHubURL ⟨str "https", str "github.com"⟩ (.addrs [.v4 10 0 0 1]) =
      some .resolvesPrivate :=
  (validateGitHubURL_rejects_private ⟨str "https", str "github.com"⟩
    [.v4 10 0 0 1] (Or.inr rfl) (by decide)).1 ⟨.v4 10 0 0 1, by decide, by decide⟩

/-! ## C7: full-URL raw dispatch with refs/heads -/

/-- The claim C7 fails: on the S2 URL the parser's ref is `refs/heads`, not
`refs/heads/main`. -/
theorem parseGitHubURL_s2_counterexample :
    (parseGitHubURL (str "https://github.com/ZhiShengYuan/inningbo-go/raw/refs/heads/main/ARCHITECTURE_REFACTORING.md")).map
        (fun i => i.ref) = some (str "refs/heads") ∧
    ¬ (some (str "refs/heads") = some (str "refs/heads/main")) := by
  decide

/-- C7 as amended: the S2 URL parses to kind `raw`, owner `ZhiShengYuan`,
repo `inningbo-go`, and the legacy tuple ref `refs/heads` with file path
`/main/ARCHITECTURE_REFACTORING.md` (the branch name is absorbed into the
file path). -/
theorem parseGitHubURL_s2_amended :
    (parseGitHubURL (str "https://github.com/ZhiShengYuan/inningbo-go/raw/refs/heads/main/ARCHITECTURE_REFACTORING.md")).map
        (fun i => (i.kind, i.owner, i.repo, i.ref, i.filepath)) =
      some (str "raw", str "ZhiShengYuan", str "inningbo-go", str "refs/heads",
        str "/main/ARCHITECTURE_REFACTORING.md") := by
  decide

/-! ## C9: API caching eligibility and TTL -/

/-- The claim C9 fails: the commits path
`/api/repos/octocat/Hello-World/commits/abc` is given the `/repos` TTL of
30 minutes, not 24 hours, because `determineTTL` tests `/repos` first. -/
theorem determineTTL_commits_counterexample :
    determineTTL (str "/api/repos/octocat/Hello-World/commits/abc") = 1800 ∧
    ¬ (1800 = 86400) := by
  decide

/-- C9 as amended: only GETs are cacheable, and the TTL is decided by the
first matching substring in the order `/releases` (1 h), `/repos` (30 min),
`/users` (30 min), `/issues` or `/pulls` (5 min), `/commits` (24 h, only when
none of the previous matched), else 15 min. -/
theorem apiCacheTTL_amended (method path : GoStr) :
    (apiShouldCache method = true ↔ method = str "GET") ∧
    (goContains path (str "/releases") = true → determineTTL path = 3600) ∧
    (goContains path (str "/releases") = false →
      goContains path (str "/repos") = true → determineTTL path = 1800) ∧
    (goContains path (str "/releases") = false →
      goContains path (str "/repos") = false →
      goContains path (str "/users") = true → determineTTL path = 1800) ∧
    (goContains path (str "/releases") = false →
      goContains path (str "/repos") = false →
      goContains path (str "/users") = false →
      (goContains path (str "/issues") = true ∨ goContains path (str "/pulls") = true) →
      determineTTL path = 300) ∧
    (goContains path (str "/releases") = false →
      goContains path (str "/repos") = false →
      goContains path (str "/users") = false →
      goContains path (str "/issues") = false →
      goContains path (str "/pulls") = false →
      goContains path (str "/commits") = true → determineTTL path = 86400) ∧
    (goContains path (str "/releases") = false →
      goContains path (str "/repos") = false →
      goContains path (str "/users") = false →
      goContains path (str "/issues") = false →
      goContains path (str "/pulls") = false →
      goContains path (str "/commits") = false → determineTTL path = 900) := by
  refine ⟨?_, ?_, ?_, ?_, ?_, ?_, ?_⟩ <;>
    first
      | simp [apiShouldCache]
      | (intros; simp_all [determineTTL])

/-- Witness for the amended C9 on concrete paths from each TTL family. -/
theorem apiCacheTTL_amended_witness :
    apiShouldCache (str "GET") = true ∧
    determineTTL (str "/api/x/releases/1") = 3600 ∧
    determineTTL (str "/api/commits/abc") = 86400 ∧
    determineTTL (str "/api/zen") = 900 :=
  ⟨(apiCacheTTL_amended (str "GET") []).1.mpr rfl,
   (apiCacheTTL_amended [] (str "/api/x/releases/1")).2.1 (by decide),
   (apiCacheTTL_amended [] (str "/api/commits/abc")).2.2.2.2.2.1 (by decide)
     (by decide) (by decide) (by decide) (by decide) (by decide),
   (apiCacheTTL_amended [] (str "/api/zen")).2.2.2.2.2.2 (by decide) (by decide)
     (by decide) (by decide) (by decide) (by decide)⟩

/-! ## C4: status codes of authentication failures -/

/-- The claim C4 fails: a credential the upstream reports 403 for is answered
with 401, not 403 — the Auth middleware maps every validation failure to 401. -/
theorem authMiddleware_forbidden_counterexample :
    authMiddleware true false (fun _ => none) (.resp 403 (str "octocat")) 0
        (str "Basic dXNlcjp0b2tlbg==") = .abort 401 ∧
    ¬ (MWOut.abort 401 = MWOut.abort 403) := by
  constructor
  · decide
  · decide

/-- C4 as amended: with authentication enabled, a missing Authorization header
with anonymous access disallowed yields 401; any Basic or Bearer validation
failure — including an upstream 403 (forbidden/expired), which the validator
turns into an error — is answered with 401, never 403. -/
theorem authMiddleware_failure_statuses (anon : Bool) (store : AuthStore)
    (up : UpstreamUser) (now : ℚ) (h pw login : GoStr) :
    (authMiddleware true anon store up now [] =
      if anon then .nextNoToken else .abort 401) ∧
    (hasPre (str "Basic ") h = true →
      (handleBasicAuth store up now h).2.1.isSome →
      authMiddleware true anon store up now h = .abort 401) ∧
    (hasPre (str "Bearer ") h = true →
      (handleBearerAuth store up now h).2.1.isSome →
      authMiddleware true anon store up now h = .abort 401) ∧
    (¬ pw = [] → validateBasicAuth pw (.resp 403 login) now = .error .forbidden) ∧
    (¬ pw = [] → validateBasicAuth pw (.resp 401 login) now = .error .unauthorized) := by
  refine ⟨?_, ?_, ?_, ?_, ?_⟩
  · by_cases ha : anon <;> simp [authMiddleware, ha]
  · intro hpre hsome
    have hne : ¬ h = [] := hasPre_cons_ne_nil _ _ _ hpre
    rcases hh : handleBasicAuth store up now h with ⟨tok, err, store'⟩
    rw [hh] at hsome
    cases err with
    | none => simp at hsome
    | some e => simp [authMiddleware, hne, hpre, hh]
  · intro hpre hsome
    have hne : ¬ h = [] := hasPre_cons_ne_nil _ _ _ hpre
    have hnb : hasPre (str "Basic ") h = false := by
      cases hb : hasPre (str "Basic ") h
      · rfl
      · obtain ⟨t, rfl⟩ := (hasPre_iff _ _).mp hb
        obtain ⟨t2, ht2⟩ := (hasPre_iff _ _).mp hpre
        simp [str] at ht2
    rcases hh : handleBearerAuth store up now h with ⟨tok, err, store'⟩
    rw [hh] at hsome
    cases err with
    | none => simp at hsome
    | some e => simp [authMiddleware, hne, hpre, hnb, hh]
  · intro hpw
    simp [validateBasicAuth, hpw]
  · intro hpw
    simp [validateBasicAuth, hpw]

/-- Witness for the amended C4: anonymous-off with no header gives 401, and a
Basic credential rejected upstream with 403 gives 401. -/
theorem authMiddleware_failure_statuses_witness :
    authMiddleware true false (fun _ => none) (.resp 403 (str "octocat")) 0 [] =
      .abort 401 ∧
    authMiddleware true false (fun _ => none) (.resp 403 (str "octocat")) 0
      (str "Basic dXNlcjp0b2tlbg==") = .abort 401 ∧
    validateBasicAuth (str "token") (.resp 403 (str "octocat")) 0 =
      .error .forbidden :=
  ⟨by
    have := (authMiddleware_failure_statuses false (fun _ => none)
      (.resp 403 (str "octocat")) 0 [] [] []).1
    simpa using this,
   (authMiddleware_failure_statuses false (fun _ => none)
      (.resp 403 (str "octocat")) 0 (str "Basic dXNlcjp0b2tlbg==") [] []).2.1
      (by decide) (by decide),
   (authMiddleware_failure_statuses false (fun _ => none)
      (.resp 403 (str "octocat")) 0 [] (str "token") (str "octocat")).2.2.2.1
      (by decide)⟩

/-! ## C10: colon-less Basic credentials pass with a nil token -/

/-- The claim C10: with authentication enabled (anonymous allowed or not), a
`Basic` header whose base64 payload decodes but has no `:` makes
`handleBasicAuth` return a nil token with a nil error, and the middleware
stores the nil token and passes the request on. -/
theorem handleBasicAuth_no_colon_passes (store : AuthStore) (up : UpstreamUser)
    (now : ℚ) (anon : Bool) (h creds : GoStr)
    (hpre : hasPre (str "Basic ") h = true)
    (hdec : base64Decode (goTrimPre (str "Basic ") h) = some creds)
    (hnc : goContains creds [':'] = false) :
    handleBasicAuth store up now h = (none, none, store) ∧
    authMiddleware true anon store up now h = .nextWithToken none := by
  have hne : ¬ h = [] := hasPre_cons_ne_nil _ _ _ hpre
  have hba : handleBasicAuth store up now h = (none, none, store) := by
    rw [handleBasicAuth, hdec]
    simp [goSplitN2, hnc]
  exact ⟨hba, by simp [authMiddleware, hne, hpre, hba]⟩

/-- Witness for C10 at the header `Basic dXNlcg==` (payload `user`, no colon). -/
theorem handleBasicAuth_no_colon_passes_witness :
    handleBasicAuth (fun _ => none) .netErr 0 (str "Basic dXNlcg==") =
      (none, none, fun _ => none) ∧
    authMiddleware true false (fun _ => none) .netErr 0 (str "Basic dXNlcg==") =
      .nextWithToken none :=
  handleBasicAuth_no_colon_passes (fun _ => none) .netErr 0 false
    (str "Basic dXNlcg==") (str "user") (by decide) (by decide) (by decide)

/-! ## C5: the auth cache never serves expired verdicts -/

/-- The claim C5: `Cache.Get` never returns an expired token; a lookup after
expiry returns nothing and removes the entry, after which
`GetOrValidateWithContext` re-validates against upstream; a present
non-expired token is returned verbatim and the result does not depend on
upstream at all. -/
theorem authCache_expiry (store : AuthStore) (u p : GoStr) (now : ℚ)
    (tok : AuthToken) :
    ((cacheGet store u p now).1 = some tok → tokenIsExpired tok now = false) ∧
    (store (u, p) = some tok → tokenIsExpired tok now = true →
      (cacheGet store u p now).1 = none ∧
      (cacheGet store u p now).2 (u, p) = none) ∧
    (store (u, p) = some tok → tokenIsExpired tok now = true →
      ∀ up : UpstreamUser,
        (getOrValidate store u p up now).1 = validateBasicAuth p up now) ∧
    ((cacheGet store u p now).1 = some tok →
      ∀ up1 up2 : UpstreamUser,
        (getOrValidate store u p up1 now).1 = .ok tok ∧
        getOrValidate store u p up1 now = getOrValidate store u p up2 now) := by
  refine ⟨?_, ?_, ?_, ?_⟩
  · intro hget
    rw [cacheGet] at hget
    cases hs : store (u, p) with
    | none => rw [hs] at hget; simp at hget
    | some t =>
      rw [hs] at hget
      cases he : tokenIsExpired t now <;> simp [he] at hget
      rw [← hget]; exact he
  · intro hs he
    simp [cacheGet, hs, he]
  · intro hs he up
    have hmiss : (cacheGet store u p now).1 = none := by simp [cacheGet, hs, he]
    rw [getOrValidate]
    rcases hcg : cacheGet store u p now with ⟨hit, store₁⟩
    rw [hcg] at hmiss
    simp only at hmiss
    subst hmiss
    cases hv : validateBasicAuth p up now <;> simp [hv]
  · intro hget up1 up2
    rcases hcg : cacheGet store u p now with ⟨hit, store₁⟩
    rw [hcg] at hget
    simp only at hget
    subst hget
    constructor <;> simp [getOrValidate, hcg]

/-- Witness for C5: a token expired at time 1 is neither served nor kept, and
a live token is served verbatim whatever upstream would answer. -/
theorem authCache_expiry_witness :
    (cacheGet
        (fun k => if k = (str "u", str "t") then
          some ⟨str "t", str "u", str "u", 0, 0⟩ else none)
        (str "u") (str "t") 1).1 = none ∧
    (getOrValidate
        (fun k => if k = (str "u", str "t") then
          some ⟨str "t", str "u", str "u", 0, 2⟩ else none)
        (str "u") (str "t") .netErr 1).1 = .ok ⟨str "t", str "u", str "u", 0, 2⟩ :=
  ⟨((authCache_expiry
      (fun k => if k = (str "u", str "t") then
        some ⟨str "t", str "u", str "u", 0, 0⟩ else none)
      (str "u") (str "t") 1 ⟨str "t", str "u", str "u", 0, 0⟩).2.1
      (by simp) (by decide)).1,
   ((authCache_expiry
      (fun k => if k = (str "u", str "t") then
        some ⟨str "t", str "u", str "u", 0, 2⟩ else none)
      (str "u") (str "t") 1 ⟨str "t", str "u", str "u", 0, 2⟩).2.2.2
      (by simp [cacheGet, tokenIsExpired]) .netErr .netErr).1⟩

/-! ## C8: SSH exec command acceptance -/

/-- The claim C8 fails: `parseGitCommand` accepts a command with an unquoted
path, a trailing extra field, and an owner (`a_b`) that the owner regex used
elsewhere rejects — the SSH parser only runs the looser `isValidGitHubName`. -/
theorem parseGitCommand_counterexample :
    parseGitCommand (str "git-upload-pack a_b/repo extra") =
      some ⟨str "git-upload-pack", str "a_b", str "repo", str "a_b/repo"⟩ ∧
    validateOwner (str "a_b") = some .invalid := by
  decide

/-- C8 as amended: an accepted exec command has first field
`git-upload-pack` or `git-receive-pack` (fields beyond the second are
ignored, quotes are optional); the repo path is normalized by stripping
surrounding quotes, leading/trailing slashes and a trailing `.git`, and its
first two `/`-components become owner and repo; both halves pass
`isValidGitHubName` (ASCII alphanumerics, `-`, `_`, `.`), a strictly looser
check than the owner regex used elsewhere (e.g. `a_b` passes it but fails the
regex). -/
theorem parseGitCommand_amended (command : GoStr) (gc : GitCommand)
    (hp : parseGitCommand command = some gc) :
    (gc.operation = str "git-upload-pack" ∨ gc.operation = str "git-receive-pack") ∧
    isValidGitHubName gc.owner = true ∧
    isValidGitHubName gc.repo = true ∧
    gc.owner =
      (goSplitChar '/' (goTrimSuf (goTrimCut gc.repoPath ['/']) (str ".git"))).getD 0 [] ∧
    gc.repo =
      (goSplitChar '/' (goTrimSuf (goTrimCut gc.repoPath ['/']) (str ".git"))).getD 1 [] ∧
    (isValidGitHubName (str "a_b") = true ∧ ownerRegexMatch (str "a_b") = false) := by
  have repoPathSound : ∀ (path : GoStr) (pr : GoStr × GoStr),
      parseRepoPath path = some pr →
      isValidGitHubName pr.1 = true ∧ isValidGitHubName pr.2 = true ∧
      pr.1 = (goSplitChar '/' (goTrimSuf (goTrimCut path ['/']) (str ".git"))).getD 0 [] ∧
      pr.2 = (goSplitChar '/' (goTrimSuf (goTrimCut path ['/']) (str ".git"))).getD 1 [] := by
    intro path pr h
    rw [parseRepoPath] at h
    split at h
    · exact absurd h (by simp)
    · split at h
      · exact absurd h (by simp)
      · split at h
        · exact absurd h (by simp)
        · split at h
          · exact absurd h (by simp)
          · rename_i hvo hvr
            rw [Option.some.injEq] at h
            subst h
            exact ⟨by simpa using hvo, by simpa using hvr, rfl, rfl⟩
  rw [parseGitCommand] at hp
  split at hp
  · exact absurd hp (by simp)
  · split at hp
    · exact absurd hp (by simp)
    · rename_i hlen hops
      rcases Option.map_eq_some'.mp hp with ⟨pr, hpr, hgc⟩
      obtain ⟨hv1, hv2, he1, he2⟩ := repoPathSound _ _ hpr
      subst hgc
      refine ⟨?_, hv1, hv2, he1, he2, by decide, by decide⟩
      by_cases hu : (goFields (goTrimSpace command)).getD 0 [] = str "git-upload-pack"
      · exact Or.inl hu
      · by_cases hr : (goFields (goTrimSpace command)).getD 0 [] = str "git-receive-pack"
        · exact Or.inr hr
        · exact absurd ⟨by simpa using hu, by simpa using hr⟩ hops

/-- Witness for the amended C8 at the canonical clone command. -/
theorem parseGitCommand_amended_witness :
    (str "git-upload-pack" = str "git-upload-pack" ∨
      str "git-upload-pack" = str "git-receive-pack") ∧
    isValidGitHubName (str "octocat") = true ∧
    isValidGitHubName (str "Hello-World") = true ∧
    str "octocat" =
      (goSplitChar '/'
        (goTrimSuf (goTrimCut (str "/octocat/Hello-World.git") ['/'])
          (str ".git"))).getD 0 [] ∧
    str "Hello-World" =
      (goSplitChar '/'
        (goTrimSuf (goTrimCut (str "/octocat/Hello-World.git") ['/'])
          (str ".git"))).getD 1 [] ∧
    (isValidGitHubName (str "a_b") = true ∧ ownerRegexMatch (str "a_b") = false) :=
  parseGitCommand_amended (str "git-upload-pack '/octocat/Hello-World.git'")
    ⟨str "git-upload-pack", str "octocat", str "Hello-World",
     str "/octocat/Hello-World.git"⟩ (by decide)

/-! ## Lemmas about header maps -/

/-- `headerGet` over an append: the left list is consulted first. -/
theorem headerGet_append (l1 l2 : List (GoStr × GoStr)) (k : GoStr) :
    headerGet (l1 ++ l2) k =
      match headerGet l1 k with
      | some v => some v
      | none => headerGet l2 k := by
  induction l1 with
  | nil => simp [headerGet]
  | cons kv rest ih =>
    rcases kv with ⟨k', v'⟩
    by_cases hk : k' = k <;> simp [headerGet, hk, ih]

/-- `headerGet` misses exactly when no pair has the key. -/
theorem headerGet_eq_none_iff (l : List (GoStr × GoStr)) (k : GoStr) :
    headerGet l k = none ↔ ∀ kv ∈ l, ¬ kv.1 = k := by
  induction l with
  | nil => simp [headerGet]
  | cons kv rest ih =>
    rcases kv with ⟨k', v'⟩
    by_cases hk : k' = k <;> simp [headerGet, hk, ih]

/-- `setHeader` makes its key resolve to its value. -/
theorem headerGet_setHeader_self (hs : List (GoStr × GoStr)) (k v : GoStr) :
    headerGet (setHeader hs k v) k = some v := by
  rw [setHeader, headerGet_append]
  have hnone : headerGet (hs.filter (fun p => !(p.1 = k))) k = none := by
    rw [headerGet_eq_none_iff]
    intro kv hkv
    have := List.of_mem_filter hkv
    simpa using this
  rw [hnone]
  simp [headerGet]

/-- `setHeader` with another key does not add the key `k`. -/
theorem headerGet_setHeader_other (hs : List (GoStr × GoStr)) (k k' v' : GoStr)
    (hk : ¬ k' = k) (h : headerGet hs k = none) :
    headerGet (setHeader hs k' v') k = none := by
  rw [setHeader, headerGet_append]
  have hnone : headerGet (hs.filter (fun p => !(p.1 = k'))) k = none := by
    rw [headerGet_eq_none_iff]
    intro kv hkv
    exact (headerGet_eq_none_iff hs k).mp h kv (List.mem_of_mem_filter hkv)
  rw [hnone]
  simp [headerGet, hk]

/-- Copying upstream headers introduces no new key. -/
theorem headerGet_copyRespHeaders_none (hs : List (GoStr × GoStr)) (k : GoStr)
    (h : ∀ kv ∈ hs, ¬ kv.1 = k) : headerGet (copyRespHeaders hs) k = none := by
  rw [copyRespHeaders]
  suffices hgen : ∀ acc, headerGet acc k = none →
      headerGet (hs.foldl (fun acc kv => setHeader acc kv.1 kv.2) acc) k = none by
    exact hgen [] (by simp [headerGet])
  induction hs with
  | nil => intro acc hacc; simpa using hacc
  | cons kv rest ih =>
    intro acc hacc
    simp only [List.foldl_cons]
    exact ih (fun kv2 h2 => h kv2 (by simp [h2]))
      (setHeader acc kv.1 kv.2)
      (headerGet_setHeader_other acc k kv.1 kv.2 (h kv (by simp)) hacc)

/-! ## C2: the X-Cache header -/

/-- The claim C2 fails: a 200 response proxied by the Git smart-HTTP handler
carries no `X-Cache` header at all. -/
theorem xCache_git_counterexample :
    (gitForwardRespond ⟨200, []⟩).status = 200 ∧
    headerGet (gitForwardRespond ⟨200, []⟩).headers xCacheName = none := by
  decide

/-- C2 as amended: cache hits answer `X-Cache: HIT-MEMORY` / `HIT-DISK` and a
cacheable 200 miss answers `X-Cache: MISS` in the raw/gist/archive and API
handlers; the release handler (modelled from the spec's shared contract, its
source being absent) answers `HIT-DISK` on a cache hit and `MISS` on a 2xx
miss; but the Git smart-HTTP handler never adds `X-Cache` (a 2xx Git response
carries it only if upstream sent one), and non-200 responses of the raw-style
handlers, non-2xx release responses, as well as non-GET API responses, carry
none. -/
theorem xCache_values_amended (up : UpResp) (entry : CEntry) (method : GoStr) :
    headerGet (serveFromCache entry).headers xCacheName = some (str "HIT-MEMORY") ∧
    headerGet (serveFromDisk entry).headers xCacheName = some (str "HIT-DISK") ∧
    (up.status = 200 →
      headerGet (rawFetchRespond up).headers xCacheName = some (str "MISS")) ∧
    (¬ up.status = 200 → (rawFetchRespond up).headers = []) ∧
    ((∀ kv ∈ up.headers, ¬ kv.1 = xCacheName) →
      headerGet (gitForwardRespond up).headers xCacheName = none) ∧
    (apiShouldCache method = true → up.status = 200 →
      headerGet (apiForwardRespond (apiShouldCache method) up).headers xCacheName =
        some (str "MISS")) ∧
    (apiShouldCache method = false → (∀ kv ∈ up.headers, ¬ kv.1 = xCacheName) →
      headerGet (apiForwardRespond (apiShouldCache method) up).headers xCacheName =
        none) ∧
    headerGet (releasesRespond (some entry) up).headers xCacheName =
      some (str "HIT-DISK") ∧
    (200 ≤ up.status ∧ up.status < 300 →
      headerGet (releasesRespond none up).headers xCacheName = some (str "MISS")) ∧
    (¬ (200 ≤ up.status ∧ up.status < 300) →
      (∀ kv ∈ up.headers, ¬ kv.1 = xCacheName) →
      headerGet (releasesRespond none up).headers xCacheName = none) := by
  refine ⟨?_, ?_, ?_, ?_, ?_, ?_, ?_, ?_, ?_, ?_⟩
  · rw [serveFromCache]
    split <;> exact headerGet_setHeader_self _ _ _
  · rw [serveFromDisk]
    split <;> exact headerGet_setHeader_self _ _ _
  · intro h200
    simp only [rawFetchRespond, h200]
    exact headerGet_setHeader_self _ _ _
  · intro hn
    simp [rawFetchRespond, hn]
  · intro habs
    rw [gitForwardRespond]
    exact headerGet_copyRespHeaders_none _ _ habs
  · intro hsc h200
    simp only [apiForwardRespond, hsc, h200, and_self, if_pos]
    exact headerGet_setHeader_self _ _ _
  · intro hsc habs
    simp only [apiForwardRespond, hsc]
    simp only [Bool.false_eq_true, false_and, if_false]
    exact headerGet_copyRespHeaders_none _ _ habs
  · rw [releasesRespond, serveFromDisk]
    split <;> exact headerGet_setHeader_self _ _ _
  · intro h2xx
    rw [releasesRespond, if_pos h2xx]
    exact headerGet_setHeader_self _ _ _
  · intro h2xx habs
    rw [releasesRespond, if_neg h2xx]
    exact headerGet_copyRespHeaders_none _ _ habs

/-- Witness for the amended C2 on a concrete upstream 200 response. -/
theorem xCache_values_amended_witness :
    headerGet (serveFromCache ⟨[], []⟩).headers xCacheName = some (str "HIT-MEMORY") ∧
    headerGet
      (rawFetchRespond ⟨200, [(str "Content-Type", str "text/plain")]⟩).headers
      xCacheName = some (str "MISS") ∧
    headerGet
      (gitForwardRespond ⟨200, [(str "Content-Type", str "text/plain")]⟩).headers
      xCacheName = none ∧
    headerGet
      (releasesRespond none ⟨200, [(str "Content-Type", str "text/plain")]⟩).headers
      xCacheName = some (str "MISS") ∧
    headerGet
      (releasesRespond none ⟨404, [(str "Content-Type", str "text/plain")]⟩).headers
      xCacheName = none :=
  ⟨(xCache_values_amended ⟨200, []⟩ ⟨[], []⟩ []).1,
   (xCache_values_amended ⟨200, [(str "Content-Type", str "text/plain")]⟩
     ⟨[], []⟩ []).2.2.1 rfl,
   (xCache_values_amended ⟨200, [(str "Content-Type", str "text/plain")]⟩
     ⟨[], []⟩ []).2.2.2.2.1 (by decide),
   (xCache_values_amended ⟨200, [(str "Content-Type", str "text/plain")]⟩
     ⟨[], []⟩ []).2.2.2.2.2.2.2.2.1 (by decide),
   (xCache_values_amended ⟨404, [(str "Content-Type", str "text/plain")]⟩
     ⟨[], []⟩ []).2.2.2.2.2.2.2.2.2 (by decide) (by decide)⟩

/-! ## C6: rate-limit burst scenario and per-IP independence -/

/-- A run of requests from one IP whose bucket exists reduces to a plain
bucket run. -/
theorem rlRun_single_some (limit burst : ℚ) (ts : List ℚ) (m : RLMap)
    (ip : GoStr) (bk : TBucket) (hm : m ip = some bk) :
    (rlRun limit burst m (ts.map (fun t => (ip, t)))).1 = bucketRun limit burst bk ts := by
  induction ts generalizing m bk with
  | nil => simp [rlRun, bucketRun]
  | cons t ts ih =>
    simp only [List.map_cons, rlRun, rlAllow, hm, Option.getD_some, bucketRun]
    congr 1
    exact ih _ _ (by simp)

/-- A run of requests from one IP starting from no bucket reduces to a bucket
run from the fresh (full) bucket. -/
theorem rlRun_single_fresh (limit burst : ℚ) (t : ℚ) (ts : List ℚ) (m : RLMap)
    (ip : GoStr) (hm : m ip = none) :
    (rlRun limit burst m ((t :: ts).map (fun t => (ip, t)))).1 =
      bucketRun limit burst (freshBucket burst t) (t :: ts) := by
  simp only [List.map_cons, rlRun, rlAllow, hm, Option.getD_none, bucketRun]
  congr 1
  exact rlRun_single_some limit burst ts _ ip _ (by simp)

/-- The claim C6: with rate 2/s and burst 3, a fresh bucket admits three
immediate requests, refuses the fourth (which the middleware answers with
HTTP 429 and the JSON error body), and admits a fifth request 600 ms later;
and buckets of distinct IPs are independent — an `Allow` call touches no
other IP's bucket and its verdict depends only on the caller's own bucket. -/
theorem rateLimit_burst_scenario (m m2 : RLMap) (ip ip2 : GoStr) (now : ℚ) :
    (m ip = none →
      (rlRun 2 3 m [(ip, 0), (ip, 0), (ip, 0), (ip, 0), (ip, 3/5)]).1 =
        [true, true, true, false, true]) ∧
    rateLimitMW false = .tooMany 429
      [(str "error", str "Too Many Requests"),
       (str "message", str "Rate limit exceeded. Please try again later.")] ∧
    rateLimitMW true = .next ∧
    (¬ ip2 = ip → (rlAllow 2 3 m ip now).2 ip2 = m ip2) ∧
    (m2 ip = m ip → (rlAllow 2 3 m2 ip now).1 = (rlAllow 2 3 m ip now).1) := by
  refine ⟨?_, rfl, rfl, ?_, ?_⟩
  · intro hm
    have hlist : [(ip, (0 : ℚ)), (ip, 0), (ip, 0), (ip, 0), (ip, 3/5)] =
        ([0, 0, 0, 0, 3/5] : List ℚ).map (fun t => (ip, t)) := rfl
    rw [hlist, rlRun_single_fresh 2 3 0 [0, 0, 0, 3/5] m ip hm]
    norm_num [bucketRun, bucketAllow, freshBucket]
  · intro hne
    simp [rlAllow, hne]
  · intro hm2
    simp [rlAllow, hm2]

/-- Witness for C6 with two concrete IPs and the empty limiter map. -/
theorem rateLimit_burst_scenario_witness :
    (rlRun 2 3 (fun _ => none)
      [(str "1.2.3.4", 0), (str "1.2.3.4", 0), (str "1.2.3.4", 0),
       (str "1.2.3.4", 0), (str "1.2.3.4", 3/5)]).1 =
      [true, true, true, false, true] ∧
    (rlAllow 2 3 (fun _ => none) (str "1.2.3.4") 0).2 (str "5.6.7.8") = none :=
  ⟨(rateLimit_burst_scenario (fun _ => none) (fun _ => none)
      (str "1.2.3.4") (str "5.6.7.8") 0).1 rfl,
   (rateLimit_burst_scenario (fun _ => none) (fun _ => none)
      (str "1.2.3.4") (str "5.6.7.8") 0).2.2.2.1 (by decide)⟩

/-! ## Lemmas about `goSplitChar` and `..` components -/

/-- A split is never the empty list of pieces. -/
theorem goSplitChar_ne_nil (sep : Char) (l : GoStr) : goSplitChar sep l ≠ [] := by
  cases l with
  | nil => simp [goSplitChar]
  | cons c rest =>
    rw [goSplitChar]
    split
    · simp
    · split <;> simp

/-- Inversion of a split: the first piece is either the whole string, or the
string starts with the piece followed by the separator. -/
theorem goSplitChar_cons_eq (sep : Char) (l s : GoStr) (t : List GoStr)
    (h : goSplitChar sep l = s :: t) :
    (l = s ∧ t = []) ∨ ∃ r, l = s ++ sep :: r ∧ goSplitChar sep r = t := by
  induction l generalizing s t with
  | nil =>
    rw [goSplitChar] at h
    rw [List.cons.injEq] at h
    exact Or.inl ⟨h.1, h.2.symm⟩
  | cons c rest ih =>
    rw [goSplitChar] at h
    split at h
    · rename_i hc
      rw [List.cons.injEq] at h
      exact Or.inr ⟨rest, by simp [← h.1, hc], h.2⟩
    · rename_i hc
      rcases hsp : goSplitChar sep rest with _ | ⟨s0, t0⟩
      · exact absurd hsp (goSplitChar_ne_nil sep rest)
      · rw [hsp, List.cons.injEq] at h
        rcases ih s0 t0 hsp with ⟨rfl, rfl⟩ | ⟨r, hr, hrt⟩
        · exact Or.inl ⟨by simp [← h.1], h.2.symm⟩
        · exact Or.inr ⟨r, by simp [← h.1, hr], by rw [hrt, h.2]⟩

/-- Splitting a separator-free piece followed by the separator. -/
theorem goSplitChar_append_sep (sep : Char) (seg r : GoStr)
    (hseg : ∀ c ∈ seg, ¬ c = sep) :
    goSplitChar sep (seg ++ sep :: r) = seg :: goSplitChar sep r := by
  induction seg with
  | nil => simp [goSplitChar]
  | cons c seg' ih =>
    have hc : ¬ c = sep := hseg c (by simp)
    rw [List.cons_append, goSplitChar, if_neg hc,
      ih (fun d hd => hseg d (by simp [hd]))]

/-- A `..` component forces one of the `..` patterns or the literal `..`. -/
theorem ddSeg_implies_pattern (l : GoStr)
    (h : str ".." ∈ goSplitChar '/' l) :
    goContains l (str "../") = true ∨ goContains l (str "/..") = true ∨
      l = str ".." := by
  suffices H : ∀ n (l : GoStr), l.length ≤ n → str ".." ∈ goSplitChar '/' l →
      goContains l (str "../") = true ∨ goContains l (str "/..") = true ∨
        l = str ".." from H l.length l le_rfl h
  intro n
  induction n with
  | zero =>
    intro l hl hmem
    have : l = [] := List.length_eq_zero.mp (Nat.le_zero.mp hl)
    subst this
    simp [goSplitChar, str] at hmem
  | succ n ih =>
    intro l hl hmem
    rcases hsp : goSplitChar '/' l with _ | ⟨s, t⟩
    · exact absurd hsp (goSplitChar_ne_nil '/' l)
    · rw [hsp, List.mem_cons] at hmem
      rcases goSplitChar_cons_eq '/' l s t hsp with ⟨rfl, rfl⟩ | ⟨r, rfl, hrt⟩
      · rcases hmem with hmem | hmem
        · exact Or.inr (Or.inr hmem.symm)
        · simp at hmem
      · have hlift : ∀ pat, goContains r pat = true →
            goContains (s ++ '/' :: r) pat = true := by
          intro pat hp
          have h2 := goContains_append_right (s ++ ['/']) r pat hp
          simpa using h2
        rcases hmem with hmem | hmem
        · refine Or.inl ?_
          refine (goContains_iff _ _).mpr ⟨[], r, ?_⟩
          rw [← hmem]
          simp [str]
        · have hrlen : r.length ≤ n := by
            simp only [List.length_append, List.length_cons] at hl
            omega
          rcases ih r hrlen (by rw [hrt]; exact hmem) with hc | hc | hc
          · exact Or.inl (hlift _ hc)
          · exact Or.inr (Or.inl (hlift _ hc))
          · subst hc
            refine Or.inr (Or.inl ?_)
            exact (goContains_iff _ _).mpr ⟨s, [], by simp [str]⟩

/-! ## Transfer lemmas for `noDotDotSeg` -/

/-- The empty remainder has no `..` component. -/
theorem noDD_nil : noDotDotSeg [] := by
  simp [noDotDotSeg, goSplitChar, str]

/-- Dropping a leading separator keeps `noDotDotSeg`. -/
theorem noDD_slash (rest : GoStr) (h : noDotDotSeg ('/' :: rest)) :
    noDotDotSeg rest := by
  rw [noDotDotSeg, goSplitChar] at h
  simp only [if_pos rfl] at h
  intro hmem
  exact h (List.mem_cons_of_mem _ hmem)

/-- Dropping a leading non-separator character whose successor is a
separator keeps `noDotDotSeg`. -/
theorem noDD_cons_head_slash (c : Char) (rest : GoStr) (hc : ¬ c = '/')
    (hh : rest.head? = some '/') (h : noDotDotSeg (c :: rest)) :
    noDotDotSeg rest := by
  cases rest with
  | nil => simp at hh
  | cons d r2 =>
    have hd : d = '/' := by simpa using hh
    subst hd
    intro hmem
    have h1 : str ".." ∈ goSplitChar '/' r2 := by
      rw [goSplitChar] at hmem
      simp only [if_pos rfl] at hmem
      rcases List.mem_cons.mp hmem with hx | hx
      · simp [str] at hx
      · exact hx
    apply h
    show str ".." ∈ goSplitChar '/' (c :: '/' :: r2)
    rw [goSplitChar, if_neg hc, goSplitChar]
    simp only [if_pos rfl]
    exact List.mem_cons_of_mem _ h1

/-- The `..`-element guard of `cleanCore` contradicts `noDotDotSeg`. -/
theorem noDD_dd_guard (tl : GoStr) (htl : tl = [] ∨ tl.head? = some '/') :
    str ".." ∈ goSplitChar '/' ('.' :: '.' :: tl) := by
  rcases htl with rfl | hh
  · simp [goSplitChar, str]
  · cases tl with
    | nil => simp at hh
    | cons d r =>
      have hd : d = '/' := by simpa using hh
      subst hd
      have := goSplitChar_append_sep '/' (str "..") r (by decide)
      simp only [str] at this ⊢
      rw [show ('.' :: '.' :: '/' :: r : GoStr) = ('.' :: '.' :: []) ++ '/' :: r by simp]
      rw [this]
      simp

/-- Splitting off the leading separator-free segment keeps `noDotDotSeg`. -/
theorem noDD_dropWhile (c : Char) (rest : GoStr) (hc : ¬ c = '/')
    (h : noDotDotSeg (c :: rest)) :
    noDotDotSeg ((c :: rest).dropWhile (fun x => !(x = '/'))) := by
  rcases hdw : (c :: rest).dropWhile (fun x => !(x = '/')) with _ | ⟨d, r⟩
  · exact noDD_nil
  · have hd : d = '/' := by
      have := List.head?_dropWhile_not (fun x => !(x = '/')) (c :: rest)
      rw [hdw] at this
      simpa using this
    subst hd
    have hsplit : c :: rest =
        ((c :: rest).takeWhile (fun x => !(x = '/'))) ++ '/' :: r := by
      conv_lhs => rw [← List.takeWhile_append_dropWhile (fun x => !(x = '/'))
        (c :: rest)]
      rw [hdw]
    have hseg : ∀ x ∈ (c :: rest).takeWhile (fun x => !(x = '/')), ¬ x = '/' := by
      intro x hx
      have := List.mem_takeWhile_imp hx
      simpa using this
    intro hmem
    rw [noDotDotSeg] at h
    apply h
    rw [hsplit, goSplitChar_append_sep '/' _ r hseg]
    rw [goSplitChar] at hmem
    simp only [if_pos rfl] at hmem
    rcases List.mem_cons.mp hmem with hmem | hmem
    · simp [str] at hmem
    · exact List.mem_cons_of_mem _ hmem

/-! ## Lemmas about `cleanBacktrack` and `cleanCore` -/

/-- `cleanBacktrack` returns a suffix of its input. -/
theorem cleanBacktrack_suffix (d : Nat) (r : GoStr) :
    ∃ s, s ++ cleanBacktrack d r = r := by
  induction r with
  | nil => exact ⟨[], rfl⟩
  | cons c rest ih =>
    rw [cleanBacktrack]
    split
    · obtain ⟨s, hs⟩ := ih
      exact ⟨c :: s, by simp [hs]⟩
    · exact ⟨[c], rfl⟩

/-- `cleanBacktrack` never drops below the `dotdot` mark. -/
theorem cleanBacktrack_length (d : Nat) (r : GoStr) (h : r.length > d) :
    d ≤ (cleanBacktrack d r).length := by
  induction r with
  | nil => simp at h
  | cons c rest ih =>
    rw [cleanBacktrack]
    split
    · rename_i hcond
      exact ih hcond.1
    · rename_i hcond
      simp only [List.length_cons] at h
      omega

/-- An occurrence of a two-character pattern in an append is inside one part
or straddles the boundary. -/
theorem goContains_two_append (x y : GoStr) (c1 c2 : Char)
    (h : goContains (x ++ y) [c1, c2] = true) :
    goContains x [c1, c2] = true ∨ goContains y [c1, c2] = true ∨
      (x.getLast? = some c1 ∧ y.head? = some c2) := by
  induction x with
  | nil => exact Or.inr (Or.inl (by simpa using h))
  | cons a x' ih =>
    rw [List.cons_append, goContains_cons] at h
    simp only [Bool.or_eq_true] at h
    rcases h with hp | hc2
    · rw [hasPre] at hp
      simp only [Bool.and_eq_true] at hp
      rcases hp with ⟨ha, hp2⟩
      have ha' : c1 = a := by simpa using ha
      cases x' with
      | nil =>
        cases y with
        | nil => simp [hasPre] at hp2
        | cons y0 y' =>
          rw [List.nil_append, hasPre] at hp2
          simp only [Bool.and_eq_true] at hp2
          rcases hp2 with ⟨hy0, _⟩
          exact Or.inr (Or.inr ⟨by simp [ha'],
            by simp [show c2 = y0 by simpa using hy0]⟩)
      | cons b x'' =>
        rw [List.cons_append, hasPre] at hp2
        simp only [Bool.and_eq_true] at hp2
        rcases hp2 with ⟨hb, _⟩
        refine Or.inl ?_
        refine (goContains_iff _ _).mpr ⟨[], x'', ?_⟩
        simp [ha', show c2 = b by simpa using hb]
    · rcases ih hc2 with h1 | h2 | h3
      · refine Or.inl ?_
        rw [goContains_cons, h1]
        simp
      · exact Or.inr (Or.inl h2)
      · refine Or.inr (Or.inr ⟨?_, h3.2⟩)
        have hx' : x' ≠ [] := by
          intro hx
          rw [hx] at h3
          simp at h3
        rw [← h3.1]
        cases x' with
        | nil => exact absurd rfl hx'
        | cons b x'' => rfl

/-- The head of the dropped part of `dropWhile` fails the predicate. -/
theorem dropWhile_head_slash (l : GoStr) (d : Char) (r : GoStr)
    (h : l.dropWhile (fun x => !(x = '/')) = d :: r) : d = '/' := by
  have := List.head?_dropWhile_not (fun x => !(x = '/')) l
  rw [h] at this
  simpa using this

/-- The `..`-element guard of `cleanCore` is impossible without a `..`
component. -/
theorem noDD_dd_contra (c : Char) (rest : GoStr)
    (hdd : c = '.' ∧ rest.head? = some '.' ∧
      (rest.tail = [] ∨ rest.tail.head? = some '/'))
    (h : noDotDotSeg (c :: rest)) : False := by
  obtain ⟨rfl, hh, htl⟩ := hdd
  cases rest with
  | nil => simp at hh
  | cons d tl =>
    have hd : d = '.' := by simpa using hh
    subst hd
    exact h (noDD_dd_guard tl (by simpa using htl))

/-- The result of `cleanCore` keeps the initial buffer as a suffix when the
remaining input has no `..` component. -/
theorem cleanCore_suffix (rooted : Bool) (rest rout : GoStr) (dotdot : Nat)
    (h : noDotDotSeg rest) :
    ∃ s, cleanCore rooted rest rout dotdot = s ++ rout := by
  induction rest, rout, dotdot using cleanCore.induct rooted with
  | case1 rout x => exact ⟨[], by rw [cleanCore]; simp⟩
  | case2 rest rout dotdot ih =>
    rw [cleanCore, if_pos rfl]
    exact ih (noDD_slash rest h)
  | case3 c rest rout dotdot hc hdot ih =>
    rw [cleanCore, if_neg hc, if_pos hdot]
    rcases hdot.2 with hrest | hh
    · subst hrest
      exact ih noDD_nil
    · exact ih (noDD_cons_head_slash c rest hc hh h)
  | case4 c rest rout dotdot hc hnd hdd hgt ih =>
    exact absurd h (fun hnd2 => noDD_dd_contra c rest hdd hnd2)
  | case5 c rest rout dotdot hc hnd hdd hngt hroot ih =>
    exact absurd h (fun hnd2 => noDD_dd_contra c rest hdd hnd2)
  | case6 c rest rout dotdot hc hnd hdd hngt hnroot ih =>
    exact absurd h (fun hnd2 => noDD_dd_contra c rest hdd hnd2)
  | case7 c rest rout dotdot hc hnd hndd ih =>
    obtain ⟨s, hs⟩ := ih (noDD_dropWhile c rest hc h)
    rw [cleanCore, if_neg hc, if_neg hnd, if_neg hndd]
    rw [dite_eq_ite] at hs
    rw [hs]
    refine ⟨s ++ ((c :: rest).takeWhile (fun x => !(x = '/'))).reverse ++
      (if rooted = true ∧ ¬ rout.length = 1 ∨ ¬ rooted = true ∧ ¬ rout.length = 0
        then ['/'] else []), ?_⟩
    split <;> simp

/-- `..` in the remaining input or in the buffer survives to the output of
`cleanCore` when the input has no `..` component. -/
theorem cleanCore_preserves_dd (rooted : Bool) (rest rout : GoStr) (dotdot : Nat)
    (h : noDotDotSeg rest)
    (hc : goContains rest (str "..") = true ∨ goContains rout (str "..") = true) :
    goContains (cleanCore rooted rest rout dotdot) (str "..") = true := by
  induction rest, rout, dotdot using cleanCore.induct rooted with
  | case1 rout x =>
    rw [cleanCore]
    rcases hc with hcl | hcr
    · exact absurd hcl (by decide)
    · exact hcr
  | case2 rest rout dotdot ih =>
    rw [cleanCore, if_pos rfl]
    refine ih (noDD_slash rest h) ?_
    rcases hc with hcl | hcr
    · rw [goContains_cons] at hcl
      simp only [Bool.or_eq_true] at hcl
      rcases hcl with hp | hcl
      · simp [str, hasPre] at hp
      · exact Or.inl hcl
    · exact Or.inr hcr
  | case3 c rest rout dotdot hcslash hdot ih =>
    rw [cleanCore, if_neg hcslash, if_pos hdot]
    have hnd : noDotDotSeg rest := by
      rcases hdot.2 with hrest | hh
      · subst hrest; exact noDD_nil
      · exact noDD_cons_head_slash c rest hcslash hh h
    refine ih hnd ?_
    rcases hc with hcl | hcr
    · rw [goContains_cons] at hcl
      simp only [Bool.or_eq_true] at hcl
      rcases hcl with hp | hcl
      · rcases hdot.2 with hrest | hh
        · subst hrest; simp [str, hasPre] at hp
        · cases rest with
          | nil => simp at hh
          | cons d r2 =>
            have hd : d = '/' := by simpa using hh
            subst hd
            simp [str, hasPre, hdot.1] at hp
      · exact Or.inl hcl
    · exact Or.inr hcr
  | case4 c rest rout dotdot hcslash hnd hdd hgt ih =>
    exact absurd h (fun hnd2 => noDD_dd_contra c rest hdd hnd2)
  | case5 c rest rout dotdot hcslash hnd hdd hngt hroot ih =>
    exact absurd h (fun hnd2 => noDD_dd_contra c rest hdd hnd2)
  | case6 c rest rout dotdot hcslash hnd hdd hngt hnroot ih =>
    exact absurd h (fun hnd2 => noDD_dd_contra c rest hdd hnd2)
  | case7 c rest rout dotdot hcslash hnd hndd ih =>
    rw [cleanCore, if_neg hcslash, if_neg hnd, if_neg hndd]
    simp only [dite_eq_ite] at ih
    have hrev : (str "..").reverse = str ".." := by decide
    have hite : goContains rout (str "..") = true →
        goContains
          (if rooted = true ∧ ¬ List.length rout = 1 ∨
              ¬ rooted = true ∧ ¬ List.length rout = 0 then '/' :: rout else rout)
          (str "..") = true := by
      intro hr
      split
      · have := goContains_append_right ['/'] rout (str "..") hr
        simpa using this
      · exact hr
    refine ih (noDD_dropWhile c rest hcslash h) ?_
    rcases hc with hcl | hcr
    · have hsplit : c :: rest =
          (c :: rest).takeWhile (fun x => !(x = '/')) ++
            (c :: rest).dropWhile (fun x => !(x = '/')) :=
        (List.takeWhile_append_dropWhile (fun x => !(x = '/')) (c :: rest)).symm
      rw [hsplit] at hcl
      have hdd2 : (str "..") = ['.', '.'] := rfl
      rw [hdd2] at hcl
      rcases goContains_two_append _ _ '.' '.' hcl with h1 | h2 | h3
      · refine Or.inr ?_
        have hrevc := goContains_reverse _ _ h1
        refine goContains_append_left _ _ _ ?_
        simpa using hrevc
      · exact Or.inl (by rw [hdd2]; exact h2)
      · rcases hdw : (c :: rest).dropWhile (fun x => !(x = '/')) with _ | ⟨d, r⟩
        · rw [hdw] at h3
          simp at h3
        · have hd := dropWhile_head_slash (c :: rest) d r hdw
          rw [hdw] at h3
          simp [hd] at h3
    · exact Or.inr (goContains_append_right _ _ _ (hite hcr))

/-- `getLast?` looks only at the right part of an append when it is non-empty. -/
theorem getLast?_append_right (s r : GoStr) (hr : r ≠ []) :
    (s ++ r).getLast? = r.getLast? := by
  obtain ⟨y, hy⟩ := Option.isSome_iff_exists.mp (List.getLast?_isSome.mpr hr)
  rw [List.getLast?_append, hy]
  rfl

/-- `getLast?` ignores a cons onto a non-empty list. -/
theorem getLast?_cons_ne_nil (x : Char) (r : GoStr) (hr : r ≠ []) :
    (x :: r).getLast? = r.getLast? := by
  cases r with
  | nil => exact absurd rfl hr
  | cons a l => exact List.getLast?_cons_cons

/-- In rooted mode, `cleanCore` keeps the buffer ending in `'/'` and never
shrinks it below the `dotdot` mark. -/
theorem cleanCore_rooted_last (rest rout : GoStr) (dotdot : Nat)
    (hd : 1 ≤ dotdot) (hlen : dotdot ≤ rout.length)
    (hlast : rout.getLast? = some '/') :
    (cleanCore true rest rout dotdot).getLast? = some '/' ∧
      dotdot ≤ (cleanCore true rest rout dotdot).length := by
  induction rest, rout, dotdot using cleanCore.induct true with
  | case1 rout x =>
    rw [cleanCore]
    exact ⟨hlast, hlen⟩
  | case2 rest rout dotdot ih =>
    rw [cleanCore, if_pos rfl]
    exact ih hd hlen hlast
  | case3 c rest rout dotdot hcslash hdot ih =>
    rw [cleanCore, if_neg hcslash, if_pos hdot]
    exact ih hd hlen hlast
  | case4 c rest rout dotdot hcslash hnd hdd hgt ih =>
    rw [cleanCore, if_neg hcslash, if_neg hnd, if_pos hdd, if_pos hgt]
    have hlen2 : dotdot ≤ (cleanBacktrack dotdot rout).length :=
      cleanBacktrack_length dotdot rout hgt
    have hne2 : cleanBacktrack dotdot rout ≠ [] := by
      intro hx
      rw [hx] at hlen2
      simp at hlen2
      omega
    obtain ⟨s, hs⟩ := cleanBacktrack_suffix dotdot rout
    have hlast2 : (cleanBacktrack dotdot rout).getLast? = some '/' := by
      rw [← hs, getLast?_append_right s _ hne2] at hlast
      exact hlast
    exact ih hd hlen2 hlast2
  | case5 c rest rout dotdot hcslash hnd hdd hngt hroot ih =>
    simp at hroot
  | case6 c rest rout dotdot hcslash hnd hdd hngt hnroot ih =>
    rw [cleanCore, if_neg hcslash, if_neg hnd, if_pos hdd, if_neg hngt]
    simp only [Bool.not_true, if_neg, Bool.false_eq_true, if_false]
    exact ih hd hlen hlast
  | case7 c rest rout dotdot hcslash hnd hndd ih =>
    rw [cleanCore, if_neg hcslash, if_neg hnd, if_neg hndd]
    have hne : rout ≠ [] := by
      intro hx
      rw [hx] at hlen
      simp at hlen
      omega
    have hlast2 : ∀ X : GoStr, X = '/' :: rout ∨ X = rout →
        (((c :: rest).takeWhile (fun x => !(x = '/'))).reverse ++ X).getLast? =
          some '/' ∧
        dotdot ≤ (((c :: rest).takeWhile (fun x => !(x = '/'))).reverse ++ X).length := by
      intro X hX
      have hXne : X ≠ [] := by
        rcases hX with rfl | rfl
        · simp
        · exact hne
      constructor
      · rw [getLast?_append_right _ _ hXne]
        rcases hX with rfl | rfl
        · rw [getLast?_cons_ne_nil _ _ hne]
          exact hlast
        · exact hlast
      · have : rout.length ≤ X.length := by
          rcases hX with rfl | rfl <;> simp
        simp only [List.length_append]
        omega
    split
    · rename_i hcond
      rw [dif_pos hcond] at ih
      exact ih hd (hlast2 _ (Or.inl rfl)).2 (hlast2 _ (Or.inl rfl)).1
    · rename_i hcond
      rw [dif_neg hcond] at ih
      exact ih hd (hlast2 _ (Or.inr rfl)).2 (hlast2 _ (Or.inr rfl)).1

/-- A list whose head is `c` has `[c]` as a prefix. -/
theorem hasPre_singleton_of_head (l : GoStr) (c : Char) (h : l.head? = some c) :
    hasPre [c] l = true := by
  cases l with
  | nil => simp at h
  | cons a t =>
    have : a = c := by simpa using h
    subst this
    simp [hasPre]

/-! ## C3: which malformed paths `ValidatePath` rejects -/

/-- The claim C3 fails: a path with consecutive slashes and a trailing slash
is accepted — `filepath.Clean` normalizes both away before the checks. -/
theorem validatePath_counterexample :
    validatePath (str "a//b/") = none := by
  simp [validatePath, pathClean, cleanCore, cleanBacktrack, str, goContains,
    hasPre, filepathIsAbs, goToLower, dangerousPatterns]

/-- C3 as amended: a path containing `..`, an embedded NUL byte, or an
absolute (leading-slash) prefix is always rejected by `ValidatePath`;
consecutive slashes and a trailing slash alone are normalized away by
`filepath.Clean` and do not cause rejection. -/
theorem validatePath_rejects (path : GoStr)
    (h : goContains path (str "..") = true ∨
         goContains path [Char.ofNat 0] = true ∨
         path.head? = some '/') :
    (validatePath path).isSome = true := by
  cases hvp : validatePath path with
  | some e => rfl
  | none =>
    exfalso
    rw [validatePath] at hvp
    split at hvp
    · simp at hvp
    split at hvp
    · simp at hvp
    split at hvp
    · simp at hvp
    split at hvp
    · simp at hvp
    split at hvp
    · simp at hvp
    split at hvp
    · simp at hvp
    rename_i hne hclean habs hnul hdang hpre
    by_cases hhead : path.head? = some '/'
    · -- absolute path: the cleaned path still starts with '/'
      apply habs
      cases path with
      | nil => simp at hhead
      | cons c rest =>
        have hc : c = '/' := by simpa using hhead
        subst hc
        have hinv := cleanCore_rooted_last rest ['/'] 1 le_rfl (by simp) rfl
        have hlen0 : ¬ (cleanCore true rest ['/'] 1).length = 0 := by
          intro hx
          omega
        rw [pathClean, if_pos rfl, if_neg hlen0, filepathIsAbs]
        apply hasPre_singleton_of_head
        rw [List.head?_reverse]
        exact hinv.1
    · rcases h with h1 | h1 | h1
      · -- the path contains ".."
        by_cases hpp : path = str ".."
        · apply hclean
          rw [hpp]
          simp [pathClean, cleanCore, cleanBacktrack, str, goContains, hasPre]
        · have hnm : ∀ pat, pat ∈ dangerousPatterns →
              goContains (goToLower path) pat = true → False := by
            intro pat hmem hcont
            exact hdang (List.any_eq_true.mpr ⟨pat, hmem, hcont⟩)
          have hnd1 : goContains path (str "../") = false := by
            cases hx : goContains path (str "../")
            · rfl
            · exfalso
              apply hnm (str "../") (by simp [dangerousPatterns])
              have := goContains_map Char.toLower path (str "../") hx
              simpa [goToLower] using this
          have hnd2 : goContains path (str "/..") = false := by
            cases hx : goContains path (str "/..")
            · rfl
            · exfalso
              apply hnm (str "/..") (by simp [dangerousPatterns])
              have := goContains_map Char.toLower path (str "/..") hx
              simpa [goToLower] using this
          have hnoDD : noDotDotSeg path := by
            intro hmem
            rcases ddSeg_implies_pattern path hmem with hx | hx | hx
            · rw [hnd1] at hx; exact Bool.false_ne_true hx
            · rw [hnd2] at hx; exact Bool.false_ne_true hx
            · exact hpp hx
          cases path with
          | nil => exact hne rfl
          | cons c rest =>
            have hcs : ¬ c = '/' := by
              intro hx
              exact hhead (by simp [hx])
            apply hclean
            rw [pathClean]
            simp only [if_neg hcs]
            have hcont : goContains (cleanCore false (c :: rest) [] 0) (str "..") =
                true :=
              cleanCore_preserves_dd false (c :: rest) [] 0 hnoDD (Or.inl h1)
            have hlen0 : ¬ (cleanCore false (c :: rest) [] 0).length = 0 := by
              intro hx
              rw [List.length_eq_zero] at hx
              rw [hx] at hcont
              exact absurd hcont (by decide)
            rw [if_neg hlen0]
            have := goContains_reverse _ _ hcont
            simpa using this
      · exact hnul h1
      · exact hhead h1

/-- Witness for the amended C3 on a `..` path and an absolute path. -/
theorem validatePath_rejects_witness :
    (validatePath (str "a..b")).isSome = true ∧
    (validatePath (str "/etc/passwd")).isSome = true :=
  ⟨validatePath_rejects (str "a..b") (Or.inl (by decide)),
   validatePath_rejects (str "/etc/passwd") (Or.inr (Or.inr (by decide)))⟩
